import Mathlib

/-!
# DatumHub package registry — verification development

A shallow embedding of the DatumHub registry core (SQLite-backed package
store, FTS5-backed search index with LIKE fallback, token authentication,
difflib-based suggestions) together with theorems about its operations.

Conventions of the embedding:
* SQL tables become Lean lists of row structures; `AUTOINCREMENT` ids are
  tracked by explicit `next…Id` counters that never decrease.
* Timestamps (`datetime('now')` strings) are modelled as `Nat`; SQLite
  compares such ISO-8601 strings exactly as their chronological order.
* SQLite `lower()` folds only ASCII letters, which coincides with
  `Char.toLower`; the embedding uses ASCII case folding throughout.
* Floating point similarity scores from `difflib` are modelled as exact
  unreduced fractions `Nat × Nat` compared by cross multiplication.
* Fallible routes return `Except ApiError`; an HTTP error response is an
  `ApiError` value.
-/

set_option maxRecDepth 100000

/-! ## ASCII case folding and SQLite LIKE matching -/

/-- Lowercase a character list; `Char.toLower` folds exactly the ASCII
uppercase letters, matching the behaviour of SQLite `lower()`. -/
def lowerChars (l : List Char) : List Char := l.map Char.toLower

/-- Lowercase a string (ASCII case folding). -/
def lowerStr (s : String) : String := ⟨lowerChars s.data⟩

/-- SQLite `LIKE` pattern matching over character lists, recursing on a
fuel counter for structural termination: `%` matches any run of
characters, `_` matches one character, and plain characters are compared
case-insensitively (SQLite LIKE folds ASCII case by default). Every
recursive call shrinks `pattern length + text length`, so any fuel above
that sum yields the fixpoint semantics. -/
def likeMatchF : Nat → List Char → List Char → Bool
  | 0, _, _ => false
  | _ + 1, [], [] => true
  | _ + 1, [], _ :: _ => false
  | fuel + 1, '%' :: ps, ts =>
      likeMatchF fuel ps ts ||
        (match ts with
         | [] => false
         | _ :: ts2 => likeMatchF fuel ('%' :: ps) ts2)
  | fuel + 1, '_' :: ps, ts =>
      (match ts with
       | [] => false
       | _ :: ts2 => likeMatchF fuel ps ts2)
  | fuel + 1, p :: ps, ts =>
      (match ts with
       | [] => false
       | t :: ts2 => (p.toLower = t.toLower : Bool) && likeMatchF fuel ps ts2)

/-- SQLite `LIKE` with adequate fuel. -/
def likeMatch (ps ts : List Char) : Bool :=
  likeMatchF (ps.length + ts.length + 1) ps ts

/-- String version of `likeMatch`. -/
def likeStr (pat text : String) : Bool := likeMatch pat.data text.data

/-! ## JSON serialization (pydantic `model_dump_json`) -/

/-- Two-digit lowercase hexadecimal rendering of a value below 256. -/
def hex2 (n : Nat) : String :=
  let dig := fun (k : Nat) => (Nat.digitChar k)
  ⟨[dig (n / 16 % 16), dig (n % 16)]⟩

/-- JSON escaping of one character, as produced by pydantic / serde_json:
quote and backslash are escaped, common control characters use their short
forms, remaining control characters use a `\u00xx` escape, and everything
else is emitted verbatim. -/
def jsonEscapeChar (c : Char) : String :=
  if c = '"' then "\\\""
  else if c = '\\' then "\\\\"
  else if c = '\n' then "\\n"
  else if c = '\r' then "\\r"
  else if c = '\t' then "\\t"
  else if c.toNat = 8 then "\\b"
  else if c.toNat = 12 then "\\f"
  else if c.toNat < 32 then "\\u00" ++ hex2 c.toNat
  else String.singleton c

/-- JSON escaping of a character list: each character is escaped and the
pieces are concatenated. -/
def jsonEscape : List Char → List Char
  | [] => []
  | c :: rest => (jsonEscapeChar c).data ++ jsonEscape rest

/-- JSON rendering of a string literal. -/
def jsonStr (s : String) : String :=
  ⟨'"' :: (jsonEscape s.data ++ ['"'])⟩

/-- JSON rendering of an optional string (`None` becomes `null`). -/
def jsonOptStr : Option String → String
  | none => "null"
  | some s => jsonStr s

/-- JSON rendering of an optional integer. -/
def jsonOptInt : Option Int → String
  | none => "null"
  | some n => toString n

/-- Comma-separated concatenation of already-rendered items. -/
def jsonArrSep : List String → String
  | [] => ""
  | [x] => x
  | x :: xs => x ++ "," ++ jsonArrSep xs

/-- JSON rendering of a list of already-rendered items. -/
def jsonArr (items : List String) : String :=
  "[" ++ jsonArrSep items ++ "]"

/-! ## Package payload data model (`models.py`) -/

/-- One source descriptor of a package payload (`SourceModel`). -/
structure SourceModel where
  url : String
  format : String
  size : Option Int
  checksum : Option String
deriving DecidableEq, Repr

/-- Publisher metadata of a package payload (`PublisherModel`). -/
structure PublisherModel where
  name : String
  url : Option String
deriving DecidableEq, Repr

/-- The package payload accepted by publish (`PackageIn`). -/
structure PackageIn where
  id : String
  version : String
  title : String
  description : Option String
  license : Option String
  publisher : PublisherModel
  tags : List String
  sources : List SourceModel
deriving DecidableEq, Repr

/-- Serialization of a source descriptor, field order as declared. -/
def dumpSource (s : SourceModel) : String :=
  "\x7b\"url\":" ++ jsonStr s.url ++ ",\"format\":" ++ jsonStr s.format ++
    ",\"size\":" ++ jsonOptInt s.size ++ ",\"checksum\":" ++ jsonOptStr s.checksum ++ "\x7d"

/-- Serialization of publisher metadata, field order as declared. -/
def dumpPublisher (p : PublisherModel) : String :=
  "\x7b\"name\":" ++ jsonStr p.name ++ ",\"url\":" ++ jsonOptStr p.url ++ "\x7d"

/-- Serialization of a list of strings as a JSON array, the form in which
the `tags` field appears both in the stored `data` column and in the result
of SQLite `json_extract(data, '$.tags')`. -/
def dumpStrList (l : List String) : String :=
  jsonArr (l.map jsonStr)

/-- Compact serialization of a package payload, exactly the
`body.model_dump_json()` text stored in the `data` column: no spaces, keys
in declaration order, `None` rendered as `null`. -/
def dumpPackage (b : PackageIn) : String :=
  "\x7b\"id\":" ++ jsonStr b.id ++ ",\"version\":" ++ jsonStr b.version ++
    ",\"title\":" ++ jsonStr b.title ++ ",\"description\":" ++ jsonOptStr b.description ++
    ",\"license\":" ++ jsonOptStr b.license ++ ",\"publisher\":" ++ dumpPublisher b.publisher ++
    ",\"tags\":" ++ dumpStrList b.tags ++ ",\"sources\":" ++ jsonArr (b.sources.map dumpSource) ++ "\x7d"

/-! ## FTS5 tokenization and MATCH semantics (`database.py`, `_fts_query`) -/

/-- Maximal runs of characters satisfying `p`; `acc` accumulates the
current run in reverse. -/
def splitRunsAux (p : Char → Bool) : List Char → List Char → List (List Char)
  | acc, [] => if acc = [] then [] else [acc.reverse]
  | acc, c :: rest =>
      if p c then splitRunsAux p (c :: acc) rest
      else if acc = [] then splitRunsAux p [] rest
      else acc.reverse :: splitRunsAux p [] rest

/-- Maximal nonempty runs of characters satisfying `p`. -/
def splitRuns (p : Char → Bool) (l : List Char) : List (List Char) :=
  splitRunsAux p [] l

/-- Tokenize a text with the FTS5 `unicode61` tokenizer restricted to the
ASCII alphabet: tokens are the maximal runs of alphanumeric characters,
case folded; every other character (including underscore) separates. -/
def ftsTokens (s : String) : List String :=
  (splitRuns Char.isAlphanum (lowerChars s.data)).map (fun l => (⟨l⟩ : String))

/-- Query terms produced by `_fts_query`: characters that are neither word
characters (alphanumeric or underscore) nor whitespace are replaced by a
space, and the result is split on whitespace discarding empty pieces. -/
def ftsQueryTerms (q : String) : List String :=
  (splitRuns (fun c => !c.isWhitespace)
      (q.data.map (fun c =>
        if c.isAlphanum || c = '_' || c.isWhitespace then c else ' '))).map
    (fun l => (⟨l⟩ : String))

/-- Phrase-with-trailing-star matching at the head of a token list: all
phrase tokens but the last must coincide with consecutive tokens, and the
last phrase token must be a prefix of the following token. -/
def phrasePreAt : List String → List String → Bool
  | [], _ => true
  | [p], tok :: _ => p.data.isPrefixOf tok.data
  | [_], [] => false
  | p :: rest, tok :: toks => (p = tok : Bool) && phrasePreAt rest toks
  | _ :: _ :: _, [] => false

/-- Phrase-with-trailing-star matching anywhere in a token list; the empty
phrase (arising from the `'""'` expression for term-free queries) matches
no document, as FTS5 does. -/
def phraseMatch (phrase : List String) : List String → Bool
  | [] => false
  | toks@(_ :: rest) =>
      (decide (phrase ≠ []) && phrasePreAt phrase toks) || phraseMatch phrase rest

/-! ## Database rows and store state (`database.py` SCHEMA) -/

/-- One row of the `users` table. -/
structure UserRow where
  id : Nat
  username : String
  passwordHash : String
deriving DecidableEq, Repr

/-- One row of the `api_tokens` table. -/
structure TokenRow where
  id : Nat
  userId : Nat
  token : String
  expiresAt : Nat
deriving DecidableEq, Repr

/-- One row of the `packages` table; `data` holds the structured payload
whose stored text form is `dumpPackage data`. -/
structure PkgRow where
  id : Nat
  packageId : String
  version : String
  ownerId : Nat
  data : PackageIn
  publishedAt : Nat
deriving DecidableEq, Repr

/-- One row of the `packages_fts` virtual table. -/
structure FtsDoc where
  rowid : Nat
  package_id : String
  title : String
  description : String
  tags : String
  publisherName : String
deriving DecidableEq, Repr

/-- The registry state: the three SQLite tables, the FTS index (present
only when the FTS5 engine is available), and the `AUTOINCREMENT` counters. -/
structure Store where
  users : List UserRow
  tokens : List TokenRow
  packages : List PkgRow
  ftsAvailable : Bool
  fts : List FtsDoc
  nextUserId : Nat
  nextTokenId : Nat
  nextPkgId : Nat
deriving DecidableEq, Repr

/-- The FTS document derived from a package row, exactly the column values
inserted by the `packages_fts_ai` trigger: `json_extract` yields the raw
title, the description with `NULL` coalesced to the empty string, the JSON
text of the tag array, and the publisher name. -/
def toDoc (p : PkgRow) : FtsDoc :=
  { rowid := p.id
    package_id := p.packageId
    title := p.data.title
    description := p.data.description.getD ""
    tags := dumpStrList p.data.tags
    publisherName := p.data.publisher.name }

/-- Whether a single FTS query term (phrase with trailing `*`) matches a
document: the phrase must occur within one of the five indexed columns. -/
def docMatchTerm (d : FtsDoc) (t : String) : Bool :=
  [d.package_id, d.title, d.description, d.tags, d.publisherName].any
    (fun field => phraseMatch (ftsTokens t) (ftsTokens field))

/-- Whether the `OR`-of-prefix-phrases expression built by `_fts_query`
matches a document. -/
def docMatchExpr (d : FtsDoc) (terms : List String) : Bool :=
  terms.any (docMatchTerm d)

/-- The effect of the `packages_fts_ai` insert trigger. -/
def ftsInsert (s : Store) (p : PkgRow) : List FtsDoc :=
  if s.ftsAvailable then s.fts ++ [toDoc p] else s.fts

/-- The effect of the `packages_fts_ad` delete trigger for one deleted row. -/
def ftsDeleteRow (avail : Bool) (fts : List FtsDoc) (oldId : Nat) : List FtsDoc :=
  if avail then fts.filter (fun d => d.rowid ≠ oldId) else fts

/-! ## API errors and response models (`models.py`, routes) -/

/-- The error kinds surfaced by the routes (HTTP 401 / 403 / 404 / 409). -/
inductive ApiError where
  | unauthenticated
  | forbidden
  | notFound
  | conflict
deriving DecidableEq, Repr

/-- The enriched package record returned by read endpoints (`PackageOut`):
the payload plus publication timestamp and owner username. -/
structure PackageOut where
  data : PackageIn
  published_at : Nat
  owner : String
deriving DecidableEq, Repr

/-- The response model of the package listing endpoint exactly as declared
in `models.py`: it has no `has_next` / `has_prev` fields. -/
structure PackageList where
  items : List PackageOut
  total : Nat
  limit : Nat
  offset : Nat
deriving DecidableEq, Repr

/-- Construction of a `PackageList` as performed by `list_packages`, which
passes `has_next` and `has_prev` keyword arguments. Pydantic models ignore
keyword arguments for undeclared fields, so the two flags are dropped. -/
def mkPackageList (items : List PackageOut) (total limit offset : Nat)
    (_has_next _has_prev : Bool) : PackageList :=
  ⟨items, total, limit, offset⟩

/-- Modelled from the spec: the response of `listVersions` (`PackageVersionList`
is imported by the routes but missing from `models.py`): the identifier, the
ordered versions, and their count. -/
structure PackageVersionList where
  id : String
  versions : List PackageOut
  total : Nat
deriving DecidableEq, Repr

/-- Modelled from the spec: the response of `suggest` (`SuggestResponse` is
imported by the routes but missing from `models.py`): the echoed query and
the ranked suggestion list. -/
structure SuggestResponse where
  query : String
  suggestions : List String
deriving DecidableEq, Repr

/-! ## Authentication (`auth.py`, `get_current_user`) -/

/-- Resolution of a bearer credential: reject when no credential is
supplied; otherwise look up an `api_tokens` row by exact token value whose
expiry lies strictly after the current time, joined to its user; reject
when no such row exists. -/
def get_current_user (s : Store) (now : Nat) (cred : Option String) :
    Except ApiError UserRow :=
  match cred with
  | none => .error .unauthenticated
  | some tok =>
    match ((s.tokens.filter (fun t => (t.token = tok : Bool) && decide (now < t.expiresAt))).filterMap
        (fun t => s.users.find? (fun u => u.id = t.userId))).head? with
    | none => .error .unauthenticated
    | some u => .ok u

/-! ## Package routes (`routes/packages.py`) -/

/-- The publisher segment of a three-segment package identifier, the first
component of `body.id.split("/")`. -/
def publisherSegment (id : String) : String := ⟨id.data.takeWhile (· ≠ '/')⟩

/-- Whether a package row has the given (identifier, version) key. -/
def pkgKeyMatch (pid ver : String) (p : PkgRow) : Bool :=
  (p.packageId = pid : Bool) && (p.version = ver : Bool)

/-- Join a selection of package rows with the `users` table on
`u.id = p.owner_id`; rows without a matching user drop out of the inner
join. -/
def joinRows (s : Store) (ps : List PkgRow) : List (PkgRow × UserRow) :=
  ps.filterMap (fun p => (s.users.find? (fun u => u.id = p.ownerId)).map (fun u => (p, u)))

/-- The record assembled by `_row_to_out`. -/
def rowToOut (r : PkgRow × UserRow) : PackageOut :=
  ⟨r.1.data, r.1.publishedAt, r.2.username⟩

/-- Comparison realising `ORDER BY p.published_at DESC, p.id DESC`. -/
def verLe (a b : PkgRow × UserRow) : Prop :=
  b.1.publishedAt < a.1.publishedAt ∨
    (a.1.publishedAt = b.1.publishedAt ∧ b.1.id ≤ a.1.id)

instance : DecidableRel verLe := fun a b =>
  inferInstanceAs (Decidable (b.1.publishedAt < a.1.publishedAt ∨
    (a.1.publishedAt = b.1.publishedAt ∧ b.1.id ≤ a.1.id)))

/-- Comparison realising `ORDER BY p.published_at DESC`. -/
def pubDescLe (a b : PkgRow × UserRow) : Prop :=
  b.1.publishedAt ≤ a.1.publishedAt

instance : DecidableRel pubDescLe := fun a b =>
  inferInstanceAs (Decidable (b.1.publishedAt ≤ a.1.publishedAt))

/-- The `GET .../{version}` endpoint: a specific version of a package. -/
def get_package (s : Store) (pub ns ds ver : String) : Except ApiError PackageOut :=
  let pid := pub ++ "/" ++ ns ++ "/" ++ ds
  match (joinRows s (s.packages.filter (pkgKeyMatch pid ver))).head? with
  | none => .error .notFound
  | some r => .ok (rowToOut r)

/-- The `GET .../{publisher}/{namespace}/{dataset}` endpoint: all versions
of a package, ordered newest first. -/
def get_all_versions (s : Store) (pub ns ds : String) : Except ApiError PackageVersionList :=
  let pid := pub ++ "/" ++ ns ++ "/" ++ ds
  let rows := (joinRows s (s.packages.filter (fun p => (p.packageId = pid : Bool)))).insertionSort verLe
  match rows with
  | [] => .error .notFound
  | _ => .ok ⟨pid, rows.map rowToOut, (rows.map rowToOut).length⟩

/-- The `GET .../latest` endpoint: the first row of the same ordering. -/
def get_latest (s : Store) (pub ns ds : String) : Except ApiError PackageOut :=
  let pid := pub ++ "/" ++ ns ++ "/" ++ ds
  let rows := (joinRows s (s.packages.filter (fun p => (p.packageId = pid : Bool)))).insertionSort verLe
  match rows.head? with
  | none => .error .notFound
  | some r => .ok (rowToOut r)

/-- Deletion of all rows with the given key from `packages`, with the
`packages_fts_ad` trigger firing once per deleted row. -/
def deletePackage (s : Store) (pid ver : String) : Store :=
  let removed := s.packages.filter (pkgKeyMatch pid ver)
  { s with
    packages := s.packages.filter (fun p => !pkgKeyMatch pid ver p)
    fts := removed.foldl (fun f r => ftsDeleteRow s.ftsAvailable f r.id) s.fts }

/-- Insertion of a fresh package row (AUTOINCREMENT id, publication time
`now`), with the `packages_fts_ai` trigger firing. -/
def insertPackage (s : Store) (body : PackageIn) (ownerId now : Nat) : Store :=
  let row : PkgRow := ⟨s.nextPkgId, body.id, body.version, ownerId, body, now⟩
  { s with
    packages := s.packages ++ [row]
    fts := ftsInsert s row
    nextPkgId := s.nextPkgId + 1 }

/-- The `POST /api/v1/packages` endpoint body (after authentication):
reject with Forbidden when the publisher segment differs from the caller
username; on an existing (identifier, version) reject with Conflict unless
`force`, and with Forbidden when `force` but the caller does not own the
existing row; otherwise delete the old row (if any) and insert the new
one. -/
def publish (s : Store) (now : Nat) (body : PackageIn) (force : Bool)
    (user : UserRow) : Except ApiError Store :=
  if publisherSegment body.id ≠ user.username then .error .forbidden
  else
    match s.packages.find? (pkgKeyMatch body.id body.version) with
    | some existing =>
        if !force then .error .conflict
        else if existing.ownerId ≠ user.id then .error .forbidden
        else .ok (insertPackage (deletePackage s body.id body.version) body user.id now)
    | none => .ok (insertPackage s body user.id now)

/-- The `DELETE .../{version}` endpoint body (after authentication). -/
def unpublish (s : Store) (pub ns ds ver : String) (user : UserRow) :
    Except ApiError Store :=
  let pid := pub ++ "/" ++ ns ++ "/" ++ ds
  match s.packages.find? (pkgKeyMatch pid ver) with
  | none => .error .notFound
  | some row =>
      if row.ownerId ≠ user.id then .error .forbidden
      else .ok (deletePackage s pid ver)

/-- Fallback text condition: `lower(p.data) LIKE '%' || lower(q) || '%'`. -/
def textCondLike (q : String) (p : PkgRow) : Bool :=
  likeStr ("%" ++ lowerStr q ++ "%") (lowerStr (dumpPackage p.data))

/-- Tag condition: `lower(p.data) LIKE '%"' || lower(tag) || '"%'`. -/
def tagCond (tag : String) (p : PkgRow) : Bool :=
  likeStr ("%\"" ++ lowerStr tag ++ "\"%") (lowerStr (dumpPackage p.data))

/-- FTS text condition: the row joins a `packages_fts` document on
`rowid = p.id` that the MATCH expression accepts. The index invariant
keeps row ids unique in the index, so the inner join contributes at most
one copy of the row. -/
def ftsCond (s : Store) (terms : List String) (p : PkgRow) : Bool :=
  s.fts.any (fun d => (d.rowid = p.id : Bool) && docMatchExpr d terms)

/-- The `GET /api/v1/packages` endpoint. `rank` is the relevance oracle of
the FTS5 engine (the `packages_fts.rank` column keyed by rowid), used only
to order results on the indexed path. An empty `q` or `tag` string is
falsy in Python and treated like its absence. When FTS5 is unavailable the
`MATCH` smoke test raises and the query falls back to the LIKE conditions;
the expressions built by `_fts_query` are always syntactically valid, so
no other input reaches the fallback. -/
def list_packages (s : Store) (rank : Nat → Int) (q tag : Option String)
    (limit offset : Nat) : PackageList :=
  let qs := q.getD ""
  let tagS := tag.getD ""
  let textCond : PkgRow → Bool :=
    if qs = "" then fun _ => true
    else if s.ftsAvailable then ftsCond s (ftsQueryTerms qs)
    else textCondLike qs
  let cond : PkgRow → Bool := fun p =>
    textCond p && ((tagS = "" : Bool) || tagCond tagS p)
  let rows := joinRows s (s.packages.filter cond)
  let sorted :=
    if qs ≠ "" && s.ftsAvailable then
      rows.insertionSort (fun a b => rank a.1.id ≤ rank b.1.id)
    else
      rows.insertionSort pubDescLe
  let total := rows.length
  let items := ((sorted.drop offset).take limit).map rowToOut
  mkPackageList items total limit offset
    (decide (offset + limit < total)) (decide (offset > 0))

/-! ## difflib similarity scoring (`suggest_packages`)

`suggest_packages` calls `difflib.get_close_matches(q, all_ids, n, 0.4)`.
The scorer is `SequenceMatcher` with no junk; `set_seq2` receives the
query, `set_seq1` each candidate. Scores are exact fractions `(num, den)`
with positive denominator, compared by cross multiplication. -/

/-- Index positions of matchable elements of `b`: the `b2j` mapping. With
`autojunk` enabled, when `b` has at least 200 characters the elements
occurring in more than one percent (plus one) of positions are dropped as
popular. -/
def b2j (b : List Char) (c : Char) : List Nat :=
  let positions := (List.range b.length).filter (fun j => b.get? j = some c)
  if b.length ≥ 200 && positions.length > b.length / 100 + 1 then []
  else positions

/-- One step of the inner loop of `find_longest_match`: for each position
`j` of `b` holding the current character of `a` within `[blo, bhi)`, the
run length `j2len(j-1) + 1` is recorded, and the best block seen so far is
updated on strict improvement. -/
def flmInner (j2len : Nat → Nat) (i : Nat) (best : Nat × Nat × Nat) :
    List Nat → ((Nat → Nat) → (Nat → Nat)) × (Nat × Nat × Nat)
  | [] => (id, best)
  | j :: js =>
      let k := (if j = 0 then 0 else j2len (j - 1)) + 1
      let (updEnv, best2) :=
        flmInner j2len i (if k > best.2.2 then (i + 1 - k, j + 1 - k, k) else best) js
      (fun env => fun j2 => if j2 = j then k else updEnv env j2, best2)

/-- Extension of the best block to the left over equal characters (the
first while loop after the dynamic program; the junk-extension loops are
vacuous because no junk function is supplied). -/
def flmExtendLeft (a b : List Char) (alo blo : Nat) :
    Nat → (Nat × Nat × Nat) → (Nat × Nat × Nat)
  | 0, best => best
  | fuel + 1, (besti, bestj, bestsize) =>
      if besti > alo && bestj > blo && (a.get? (besti - 1) = b.get? (bestj - 1) : Bool)
          && (a.get? (besti - 1)).isSome then
        flmExtendLeft a b alo blo fuel (besti - 1, bestj - 1, bestsize + 1)
      else (besti, bestj, bestsize)

/-- Extension of the best block to the right over equal characters (the
second while loop after the dynamic program). -/
def flmExtendRight (a b : List Char) (ahi bhi : Nat) :
    Nat → (Nat × Nat × Nat) → (Nat × Nat × Nat)
  | 0, best => best
  | fuel + 1, (besti, bestj, bestsize) =>
      if besti + bestsize < ahi && bestj + bestsize < bhi
          && (a.get? (besti + bestsize) = b.get? (bestj + bestsize) : Bool)
          && (a.get? (besti + bestsize)).isSome then
        flmExtendRight a b ahi bhi fuel (besti, bestj, bestsize + 1)
      else (besti, bestj, bestsize)

/-- The dynamic program of `find_longest_match` over `a[alo:ahi]` and
`b[blo:bhi]`, followed by the two extension loops. -/
def findLongestMatch (a b : List Char) (alo ahi blo bhi : Nat) : Nat × Nat × Nat :=
  let step := fun (st : (Nat → Nat) × (Nat × Nat × Nat)) (i : Nat) =>
    let js := (b2j b ((a.get? i).getD ' ')).filter (fun j => blo ≤ j && j < bhi)
    let (updEnv, best2) := flmInner st.1 i st.2 js
    (updEnv (fun _ => 0), best2)
  let init : (Nat → Nat) × (Nat × Nat × Nat) := (fun _ => 0, (alo, blo, 0))
  let res := (((List.range ahi).drop alo).foldl step init).2
  let res2 := flmExtendLeft a b alo blo (res.1 + res.2.1) res
  flmExtendRight a b ahi bhi (ahi + bhi) res2

/-- Total size of all matching blocks: the recursion of
`get_matching_blocks` restricted to the sum of block sizes, with explicit
fuel for termination (the recursion depth is bounded by the range sizes). -/
def matchingSize (a b : List Char) : Nat → Nat × Nat × Nat × Nat → Nat
  | 0, _ => 0
  | fuel + 1, (alo, ahi, blo, bhi) =>
      let (i, j, k) := findLongestMatch a b alo ahi blo bhi
      if k = 0 then 0
      else
        matchingSize a b fuel (alo, i, blo, j) + k +
          matchingSize a b fuel (i + k, ahi, j + k, bhi)

/-- The number of character matches used by `SequenceMatcher.ratio`. -/
def seqMatches (a b : List Char) : Nat :=
  matchingSize a b (a.length + b.length + 1) (0, a.length, 0, b.length)

/-- `calculate_ratio`: `2 * matches / length` as an exact fraction, and 1
when both sequences are empty. -/
def calcRatioFrac (m length : Nat) : Nat × Nat :=
  if length = 0 then (1, 1) else (2 * m, length)

/-- `SequenceMatcher.ratio()` for `a = x`, `b = word`, as a fraction. -/
def ratioFrac (a b : List Char) : Nat × Nat :=
  calcRatioFrac (seqMatches a b) (a.length + b.length)

/-- Multiset intersection size used by `quick_ratio`: each character of
`a` consumes one remaining occurrence in `b` when available. -/
def quickMatches (a : List Char) (remaining : List Char) : Nat :=
  match a with
  | [] => 0
  | c :: rest =>
      if remaining.contains c then 1 + quickMatches rest (remaining.erase c)
      else quickMatches rest remaining

/-- `SequenceMatcher.quick_ratio()` as a fraction. -/
def quickRatioFrac (a b : List Char) : Nat × Nat :=
  calcRatioFrac (quickMatches a b) (a.length + b.length)

/-- `SequenceMatcher.real_quick_ratio()` as a fraction. -/
def realQuickRatioFrac (a b : List Char) : Nat × Nat :=
  calcRatioFrac (min a.length b.length) (a.length + b.length)

/-- Comparison `p < q` of score fractions by cross multiplication. -/
def fracLt (p q : Nat × Nat) : Bool := decide (p.1 * q.2 < q.1 * p.2)

/-- Equality of score fractions by cross multiplication. -/
def fracEq (p q : Nat × Nat) : Bool := decide (p.1 * q.2 = q.1 * p.2)

/-- Comparison `p ≥ q` of score fractions. -/
def fracGe (p q : Nat × Nat) : Bool := !fracLt p q

/-- Python string comparison: lexicographic by code point, a strict
prefix ordered first. -/
def pyStrLt : List Char → List Char → Bool
  | [], [] => false
  | [], _ :: _ => true
  | _ :: _, [] => false
  | a :: as, b :: bs => decide (a < b) || ((a = b : Bool) && pyStrLt as bs)

/-- Descending comparison of `(score, candidate)` pairs, the order in
which `heapq.nlargest` returns them: larger score first, and on equal
scores the lexicographically larger candidate string first (Python
compares the tuples elementwise). -/
def suggLe (p q : (Nat × Nat) × String) : Prop :=
  fracLt q.1 p.1 = true ∨ (fracEq p.1 q.1 = true ∧ pyStrLt p.2.data q.2.data = false)

instance : DecidableRel suggLe := fun p q =>
  inferInstanceAs (Decidable (fracLt q.1 p.1 = true ∨
    (fracEq p.1 q.1 = true ∧ pyStrLt p.2.data q.2.data = false)))

/-- `difflib.get_close_matches(word, possibilities, n, cutoff)`: keep the
candidates whose three ratio stages all reach the cutoff, pair them with
their ratio, and return the `n` largest `(score, candidate)` pairs in
descending tuple order, stripped of their scores. -/
def get_close_matches (word : String) (possibilities : List String) (n : Nat)
    (cutoff : Nat × Nat) : List String :=
  let result := (possibilities.filter (fun x =>
      fracGe (realQuickRatioFrac x.data word.data) cutoff &&
        fracGe (quickRatioFrac x.data word.data) cutoff &&
        fracGe (ratioFrac x.data word.data) cutoff)).map
    (fun x => (ratioFrac x.data word.data, x))
  ((result.insertionSort suggLe).take n).map (·.2)

/-- The distinct currently-published package identifiers
(`SELECT DISTINCT package_id FROM packages`). -/
def distinctIds (s : Store) : List String := (s.packages.map (·.packageId)).dedup

/-- The `GET /api/v1/packages/suggest` endpoint: close matches of the
query among the distinct live identifiers, with cutoff `0.4 = 2/5`. -/
def suggest_packages (s : Store) (q : String) (n : Nat) : SuggestResponse :=
  ⟨q, get_close_matches q (distinctIds s) n (2, 5)⟩

/-! ## Startup, registration, token issuance, operation sequences -/

/-- The fresh store produced by `init_db` on an empty database: empty
tables and, when the FTS5 engine is available, an empty index. -/
def initStore (avail : Bool) : Store :=
  { users := []
    tokens := []
    packages := []
    ftsAvailable := avail
    fts := []
    nextUserId := 1
    nextTokenId := 1
    nextPkgId := 1 }

/-- The `_backfill_fts` startup step: insert a document for every package
row whose id is not yet a rowid of the index; a no-op when the FTS5
engine is unavailable (the statement raises and is swallowed). -/
def backfillFts (s : Store) : Store :=
  if s.ftsAvailable then
    { s with
      fts := s.fts ++
        (s.packages.filter (fun p => !(s.fts.any (fun d => (d.rowid = p.id : Bool))))).map toDoc }
  else s

/-- The fixed credential TTL: `datetime('now', '+90 days')`. -/
def tokenTtl : Nat := 90 * 86400

/-- The `POST /api/auth/register` endpoint: reject (Conflict, no
mutation) when the username is taken, otherwise insert a user row. -/
def registerUser (s : Store) (username pwHash : String) : Store :=
  match s.users.find? (fun u => (u.username = username : Bool)) with
  | some _ => s
  | none =>
      { s with
        users := s.users ++ [⟨s.nextUserId, username, pwHash⟩]
        nextUserId := s.nextUserId + 1 }

/-- The `POST /api/auth/token` endpoint. Password verification (PBKDF2 in
`password.py`) is modelled as comparison of the supplied secret against
the stored credential hash; a failed check issues nothing. The guard on
the token value models the `UNIQUE` constraint on `api_tokens.token`. -/
def issueToken (s : Store) (username pw tokenVal : String) (now : Nat) : Store :=
  match s.users.find? (fun u => (u.username = username : Bool)) with
  | none => s
  | some u =>
      if (pw = u.passwordHash : Bool) && !(s.tokens.any (fun t => (t.token = tokenVal : Bool))) then
        { s with
          tokens := s.tokens ++ [⟨s.nextTokenId, u.id, tokenVal, now + tokenTtl⟩]
          nextTokenId := s.nextTokenId + 1 }
      else s

/-- The mutating operations of the registry, as observable at the HTTP
boundary; reads are pure and need no operation. -/
inductive Op where
  | register (username pwHash : String)
  | issueToken (username pw tokenVal : String) (now : Nat)
  | publish (cred : Option String) (now : Nat) (body : PackageIn) (force : Bool)
  | unpublish (cred : Option String) (now : Nat) (pub ns ds ver : String)
  | backfill

/-- The state transition of one operation; a request that ends in an
error response leaves the store unchanged (every route raises before its
first mutation). -/
def applyOp (s : Store) : Op → Store
  | .register username pwHash => registerUser s username pwHash
  | .issueToken username pw tokenVal now => issueToken s username pw tokenVal now
  | .publish cred now body force =>
      match get_current_user s now cred with
      | .error _ => s
      | .ok user =>
          match publish s now body force user with
          | .error _ => s
          | .ok s2 => s2
  | .unpublish cred now pub ns ds ver =>
      match get_current_user s now cred with
      | .error _ => s
      | .ok user =>
          match unpublish s pub ns ds ver user with
          | .error _ => s
          | .ok s2 => s2
  | .backfill => backfillFts s

/-- The store reached by a sequence of operations from a fresh database. -/
def runOps (avail : Bool) (ops : List Op) : Store :=
  ops.foldl applyOp (initStore avail)

example : pyStrLt "ab".data "ac".data = true := by decide
example : ftsTokens "Sample Data" = ["sample", "data"] := by decide
example : ftsQueryTerms "weather  data!" = ["weather", "data"] := by decide

/-! ## Helper lemmas: sortedness, Python string order, joins -/

theorem pyStrLt_irrefl : ∀ a : List Char, pyStrLt a a = false := by
  intro a
  induction a with
  | nil => rfl
  | cons c t ih => simp [pyStrLt, ih]

theorem pyStrLt_trans : ∀ {a b c : List Char},
    pyStrLt a b = true → pyStrLt b c = true → pyStrLt a c = true := by
  intro a
  induction a with
  | nil =>
      intro b c hab hbc
      cases b with
      | nil => exact hbc
      | cons y bs => cases c with
        | nil => simp [pyStrLt] at hbc
        | cons z cs => rfl
  | cons x as ih =>
      intro b c hab hbc
      cases b with
      | nil => simp [pyStrLt] at hab
      | cons y bs =>
          cases c with
          | nil => simp [pyStrLt] at hbc
          | cons z cs =>
              simp only [pyStrLt, Bool.or_eq_true, Bool.and_eq_true,
                decide_eq_true_eq] at hab hbc ⊢
              rcases hab with h1 | ⟨rfl, h1⟩
              · rcases hbc with h2 | ⟨rfl, h2⟩
                · exact Or.inl (lt_trans h1 h2)
                · exact Or.inl h1
              · rcases hbc with h2 | ⟨rfl, h2⟩
                · exact Or.inl h2
                · exact Or.inr ⟨rfl, ih h1 h2⟩

theorem pyStrLt_total : ∀ a b : List Char,
    pyStrLt a b = true ∨ pyStrLt b a = true ∨ a = b := by
  intro a
  induction a with
  | nil =>
      intro b
      cases b with
      | nil => exact Or.inr (Or.inr rfl)
      | cons y bs => exact Or.inl rfl
  | cons x as ih =>
      intro b
      cases b with
      | nil => exact Or.inr (Or.inl rfl)
      | cons y bs =>
          rcases lt_trichotomy x y with h | h | h
          · exact Or.inl (by simp [pyStrLt, h])
          · subst h
            rcases ih bs with h2 | h2 | h2
            · exact Or.inl (by simp [pyStrLt, h2])
            · exact Or.inr (Or.inl (by simp [pyStrLt, h2]))
            · exact Or.inr (Or.inr (by simp [h2]))
          · exact Or.inr (Or.inl (by simp [pyStrLt, h]))

theorem pyStrLt_asymm {a b : List Char} (h : pyStrLt a b = true) :
    pyStrLt b a = false := by
  by_contra hc
  have hba : pyStrLt b a = true := by
    cases hx : pyStrLt b a
    · exact absurd hx hc
    · rfl
  have := pyStrLt_trans h hba
  rw [pyStrLt_irrefl] at this
  exact Bool.false_ne_true this

theorem sorted_orderedInsert_mem {α : Type} (r : α → α → Prop) [DecidableRel r] (a : α) :
    ∀ l : List α, (∀ x ∈ l, r a x ∨ r x a) →
      (∀ x ∈ l, ∀ y ∈ l, r a x → r x y → r a y) →
      List.Sorted r l → List.Sorted r (l.orderedInsert r a) := by
  intro l
  induction l with
  | nil => intro _ _ _; simp [List.orderedInsert]
  | cons b t ih =>
      intro htot htrans hs
      rw [List.orderedInsert]
      rcases List.sorted_cons.mp hs with ⟨hbt, hst⟩
      by_cases hab : r a b
      · simp only [if_pos hab]
        refine List.sorted_cons.mpr ⟨?_, hs⟩
        intro x hx
        rcases List.mem_cons.mp hx with rfl | hxt
        · exact hab
        · exact htrans b (by simp) x (by simp [hxt]) hab (hbt x hxt)
      · simp only [if_neg hab]
        have hba : r b a := by
          rcases htot b (by simp) with h | h
          · exact absurd h hab
          · exact h
        refine List.sorted_cons.mpr ⟨?_, ?_⟩
        · intro x hx
          rcases (List.mem_orderedInsert r).mp hx with rfl | hxt
          · exact hba
          · exact hbt x hxt
        · exact ih (fun x hx => htot x (by simp [hx]))
            (fun x hx y hy => htrans x (by simp [hx]) y (by simp [hy])) hst

theorem sorted_insertionSort_mem {α : Type} (r : α → α → Prop) [DecidableRel r] :
    ∀ l : List α, (∀ x ∈ l, ∀ y ∈ l, r x y ∨ r y x) →
      (∀ x ∈ l, ∀ y ∈ l, ∀ z ∈ l, r x y → r y z → r x z) →
      List.Sorted r (l.insertionSort r) := by
  intro l
  induction l with
  | nil => intro _ _; simp
  | cons a t ih =>
      intro htot htrans
      rw [List.insertionSort]
      refine sorted_orderedInsert_mem r a _ ?_ ?_ ?_
      · intro x hx
        exact htot a (by simp) x (by simp [(List.mem_insertionSort r).mp hx])
      · intro x hx y hy
        exact htrans a (by simp) x (by simp [(List.mem_insertionSort r).mp hx])
          y (by simp [(List.mem_insertionSort r).mp hy])
      · exact ih (fun x hx y hy => htot x (by simp [hx]) y (by simp [hy]))
          (fun x hx y hy z hz =>
            htrans x (by simp [hx]) y (by simp [hy]) z (by simp [hz]))

theorem verLe_total : ∀ a b : PkgRow × UserRow, verLe a b ∨ verLe b a := by
  intro a b
  unfold verLe
  omega

theorem verLe_trans : ∀ a b c : PkgRow × UserRow, verLe a b → verLe b c → verLe a c := by
  intro a b c
  unfold verLe
  omega

theorem pubDescLe_total : ∀ a b : PkgRow × UserRow, pubDescLe a b ∨ pubDescLe b a := by
  intro a b
  unfold pubDescLe
  omega

theorem pubDescLe_trans : ∀ a b c : PkgRow × UserRow,
    pubDescLe a b → pubDescLe b c → pubDescLe a c := by
  intro a b c
  unfold pubDescLe
  omega

theorem joinRows_map_fst (s : Store) :
    ∀ ps : List PkgRow, (∀ p ∈ ps, ∃ u ∈ s.users, u.id = p.ownerId) →
      (joinRows s ps).map Prod.fst = ps := by
  intro ps
  induction ps with
  | nil => intro _; rfl
  | cons p t ih =>
      intro h
      have : (s.users.find? (fun u => u.id = p.ownerId)).isSome := by
        rcases h p (by simp) with ⟨u, hu, hid⟩
        exact List.find?_isSome.mpr ⟨u, hu, by simp [hid]⟩
      rcases Option.isSome_iff_exists.mp this with ⟨u, hu⟩
      simp only [joinRows, List.filterMap_cons, hu, Option.map_some]
      simpa [joinRows] using ih (fun q hq => h q (by simp [hq]))

theorem joinRows_mem {s : Store} {ps : List PkgRow} {r : PkgRow × UserRow}
    (h : r ∈ joinRows s ps) : r.1 ∈ ps ∧ r.2 ∈ s.users ∧ r.2.id = r.1.ownerId := by
  unfold joinRows at h
  rcases List.mem_filterMap.mp h with ⟨p, hp, hmap⟩
  rcases Option.map_eq_some'.mp hmap with ⟨u, hfind, heq⟩
  cases heq
  exact ⟨hp, List.mem_of_find?_eq_some hfind,
    by simpa using List.find?_some hfind⟩

/-! ## Concrete fixtures used by witnesses and counterexamples -/

/-- A registered user. -/
def aliceU : UserRow := ⟨1, "alice", "pwhashA"⟩

/-- A second registered user. -/
def bobU : UserRow := ⟨2, "bob", "pwhashB"⟩

/-- A well-formed payload for `alice/samples/weather@0.1.0`. -/
def wxPkg : PackageIn :=
  ⟨"alice/samples/weather", "0.1.0", "Sample Data", none, none, ⟨"Alice", none⟩,
    [], [⟨"https://example.com/s.csv", "csv", none, none⟩]⟩

/-- The stored row holding `wxPkg`, owned by Alice. -/
def wxRow : PkgRow := ⟨1, "alice/samples/weather", "0.1.0", 1, wxPkg, 10⟩

/-- A store holding Alice, Bob, one live token for Alice (expiring at
1000) and Alice's single published package, with a synced index. -/
def storeOne : Store :=
  { users := [aliceU, bobU]
    tokens := [⟨1, 1, "tokA", 1000⟩]
    packages := [wxRow]
    ftsAvailable := true
    fts := [toDoc wxRow]
    nextUserId := 3
    nextTokenId := 2
    nextPkgId := 2 }

/-! ## C8 — authentication -/

/-- C8: `authenticate` fails Unauthenticated when no bearer token is
supplied; for a supplied token it fails Unauthenticated exactly when no
stored credential with that exact token value and expiry after the current
time exists (an expired token and a never-issued token fail identically);
on success it returns the user bound to the live credential. -/
theorem c8_authenticate (s : Store) (now : Nat)
    (hwf : ∀ t ∈ s.tokens, ∃ u ∈ s.users, u.id = t.userId) :
    get_current_user s now none = .error .unauthenticated ∧
    ∀ tok : String,
      (get_current_user s now (some tok) = .error .unauthenticated ↔
        ¬∃ t ∈ s.tokens, t.token = tok ∧ now < t.expiresAt) ∧
      ∀ u, get_current_user s now (some tok) = .ok u →
        u ∈ s.users ∧ ∃ t ∈ s.tokens, t.token = tok ∧ now < t.expiresAt ∧ u.id = t.userId := by
  refine ⟨rfl, ?_⟩
  intro tok
  have hmain : ∀ u,
      ((s.tokens.filter (fun t => (t.token = tok : Bool) && decide (now < t.expiresAt))).filterMap
        (fun t => s.users.find? (fun v => v.id = t.userId))).head? = some u →
      u ∈ s.users ∧ ∃ t ∈ s.tokens, t.token = tok ∧ now < t.expiresAt ∧ u.id = t.userId := by
    intro u hu
    have humem := List.mem_of_mem_head? hu
    rcases List.mem_filterMap.mp humem with ⟨t, htmem, hfind⟩
    rcases List.mem_filter.mp htmem with ⟨htok, hcond⟩
    simp only [Bool.and_eq_true, decide_eq_true_eq] at hcond
    refine ⟨List.mem_of_find?_eq_some hfind, t, htok, hcond.1, hcond.2, ?_⟩
    simpa using List.find?_some hfind
  constructor
  · rcases hL : ((s.tokens.filter (fun t => (t.token = tok : Bool) && decide (now < t.expiresAt))).filterMap
        (fun t => s.users.find? (fun v => v.id = t.userId))).head? with _ | u
    · simp only [get_current_user, hL]
      constructor
      · intro _ hex
        rcases hex with ⟨t, ht, htok, hlive⟩
        have hmemf : t ∈ s.tokens.filter
            (fun t => (t.token = tok : Bool) && decide (now < t.expiresAt)) :=
          List.mem_filter.mpr ⟨ht, by simp [htok, hlive]⟩
        have hnil := List.head?_eq_none_iff.mp hL
        have hnone := (List.filterMap_eq_nil_iff.mp hnil) t hmemf
        rcases hwf t ht with ⟨v, hv, hvid⟩
        have : (s.users.find? (fun w => w.id = t.userId)).isSome :=
          List.find?_isSome.mpr ⟨v, hv, by simp [hvid]⟩
        rw [hnone] at this
        simp at this
      · intro _; trivial
    · simp only [get_current_user, hL]
      constructor
      · intro hcon
        exact absurd hcon (by simp)
      · intro hnex
        exfalso
        rcases (hmain u hL).2 with ⟨t, ht, htok, hlive, _⟩
        exact hnex ⟨t, ht, htok, hlive⟩
  · intro u hu
    rcases hL : ((s.tokens.filter (fun t => (t.token = tok : Bool) && decide (now < t.expiresAt))).filterMap
        (fun t => s.users.find? (fun v => v.id = t.userId))).head? with _ | v
    · simp only [get_current_user, hL] at hu
      exact absurd hu (by simp)
    · simp only [get_current_user, hL] at hu
      have : v = u := by
        simpa using hu
      subst this
      exact hmain v hL

/-- C8 witness: in the concrete store, a missing token, an expired or
never-issued token, and the live token behave as the theorem states. -/
theorem c8_authenticate_witness :
    get_current_user storeOne 5 none = .error .unauthenticated ∧
    get_current_user storeOne 5 (some "nosuch") = .error .unauthenticated ∧
    get_current_user storeOne 2000 (some "tokA") = .error .unauthenticated ∧
    get_current_user storeOne 5 (some "tokA") = .ok aliceU := by
  have h := c8_authenticate storeOne 5 (by decide)
  have h2 := c8_authenticate storeOne 2000 (by decide)
  refine ⟨h.1, ?_, ?_, by rfl⟩
  · exact ((h.2 "nosuch").1.mpr (by decide))
  · exact ((h2.2 "tokA").1.mpr (by decide))

/-! ## C10 — unpublish frame effect -/

theorem singleton_of_mem_length_le_one {α : Type} {l : List α} {a : α}
    (hlen : l.length ≤ 1) (hmem : a ∈ l) : l = [a] := by
  cases l with
  | nil => cases hmem
  | cons x t =>
      cases t with
      | nil => rcases List.mem_singleton.mp hmem with rfl; rfl
      | cons y u => simp at hlen

/-- C10: a successful `unpublish` by the owning caller removes exactly the
single package row keyed by the identifier and version (the store keeps
(identifier, version) unique), and leaves every other package row, every
user row and every credential row untouched. -/
theorem c10_unpublish_frame (s : Store) (pub ns ds ver : String) (user : UserRow)
    (s2 : Store)
    (huniq : (s.packages.filter (pkgKeyMatch (pub ++ "/" ++ ns ++ "/" ++ ds) ver)).length ≤ 1)
    (h : unpublish s pub ns ds ver user = .ok s2) :
    ∃ r ∈ s.packages,
      pkgKeyMatch (pub ++ "/" ++ ns ++ "/" ++ ds) ver r = true ∧ r.ownerId = user.id ∧
      s.packages.Perm (r :: s2.packages) ∧
      s2.packages =
        s.packages.filter (fun p => !pkgKeyMatch (pub ++ "/" ++ ns ++ "/" ++ ds) ver p) ∧
      s2.users = s.users ∧ s2.tokens = s.tokens := by
  have h : (match s.packages.find? (pkgKeyMatch (pub ++ "/" ++ ns ++ "/" ++ ds) ver) with
      | none => Except.error ApiError.notFound
      | some row =>
          if row.ownerId ≠ user.id then Except.error ApiError.forbidden
          else Except.ok (deletePackage s (pub ++ "/" ++ ns ++ "/" ++ ds) ver)) =
      Except.ok s2 := h
  rcases hfind : s.packages.find? (pkgKeyMatch (pub ++ "/" ++ ns ++ "/" ++ ds) ver)
    with _ | row
  · rw [hfind] at h
    simp only at h
    exact absurd h (by simp)
  · rw [hfind] at h
    simp only at h
    by_cases hown : row.ownerId ≠ user.id
    · rw [if_pos hown] at h
      exact absurd h (by simp)
    · rw [if_neg hown] at h
      have hs2 : deletePackage s (pub ++ "/" ++ ns ++ "/" ++ ds) ver = s2 := by
        simpa using h
      have hmem := List.mem_of_find?_eq_some hfind
      have hkey := List.find?_some hfind
      have hfilter : s.packages.filter (pkgKeyMatch (pub ++ "/" ++ ns ++ "/" ++ ds) ver)
          = [row] :=
        singleton_of_mem_length_le_one huniq (List.mem_filter.mpr ⟨hmem, hkey⟩)
      refine ⟨row, hmem, hkey, by omega, ?_, ?_, ?_, ?_⟩
      · have hperm := List.filter_append_perm
          (pkgKeyMatch (pub ++ "/" ++ ns ++ "/" ++ ds) ver) s.packages
        rw [hfilter] at hperm
        have : s2.packages =
            s.packages.filter (fun p => !pkgKeyMatch (pub ++ "/" ++ ns ++ "/" ++ ds) ver p) := by
          rw [← hs2]; rfl
        rw [this]
        exact (hperm.symm)
      · rw [← hs2]; rfl
      · rw [← hs2]; rfl
      · rw [← hs2]; rfl

/-- C10 witness: unpublishing Alice's only package from the concrete store
removes exactly that row and keeps users and tokens. -/
theorem c10_unpublish_frame_witness :
    ∃ r ∈ storeOne.packages,
      pkgKeyMatch ("alice" ++ "/" ++ "samples" ++ "/" ++ "weather") "0.1.0" r = true ∧
      r.ownerId = aliceU.id ∧
      storeOne.packages.Perm (r :: (deletePackage storeOne "alice/samples/weather" "0.1.0").packages) ∧
      (deletePackage storeOne "alice/samples/weather" "0.1.0").packages =
        storeOne.packages.filter
          (fun p => !pkgKeyMatch ("alice" ++ "/" ++ "samples" ++ "/" ++ "weather") "0.1.0" p) ∧
      (deletePackage storeOne "alice/samples/weather" "0.1.0").users = storeOne.users ∧
      (deletePackage storeOne "alice/samples/weather" "0.1.0").tokens = storeOne.tokens :=
  c10_unpublish_frame storeOne "alice" "samples" "weather" "0.1.0" aliceU
    (deletePackage storeOne "alice/samples/weather" "0.1.0") (by decide) (by rfl)

/-! ## C6 — pagination metadata -/

/-- The payload of version `v` of Alice's weather package. -/
def verPkg (v : String) : PackageIn :=
  { wxPkg with version := v }

/-- Five published versions of one identifier, at increasing times. -/
def fiveRows : List PkgRow :=
  [⟨1, "alice/samples/weather", "0.1.0", 1, verPkg "0.1.0", 1⟩,
   ⟨2, "alice/samples/weather", "0.2.0", 1, verPkg "0.2.0", 2⟩,
   ⟨3, "alice/samples/weather", "0.3.0", 1, verPkg "0.3.0", 3⟩,
   ⟨4, "alice/samples/weather", "0.4.0", 1, verPkg "0.4.0", 4⟩,
   ⟨5, "alice/samples/weather", "0.5.0", 1, verPkg "0.5.0", 5⟩]

/-- A store with Alice and her five versions, index synced. -/
def fiveStore : Store :=
  { users := [aliceU]
    tokens := []
    packages := fiveRows
    ftsAvailable := true
    fts := fiveRows.map toDoc
    nextUserId := 2
    nextTokenId := 1
    nextPkgId := 6 }

/-- C6: the route computes `has_next = (offset + limit < total)` and
`has_prev = (offset > 0)` and passes them to the `PackageList`
constructor, but the model declared in `models.py` has no such fields, so
pydantic silently drops them: the constructor result is independent of the
two flags, and the scenario with 5 stored versions, `limit = 2`,
`offset = 2` — where the spec requires `hasNext = hasPrev = true` — yields
a response carrying only items, total, limit and offset. -/
theorem c6_pagination_flags_dropped :
    (∀ (i : List PackageOut) (t l o : Nat) (a b a2 b2 : Bool),
        mkPackageList i t l o a b = mkPackageList i t l o a2 b2) ∧
    (list_packages fiveStore (fun _ => 0) none none 2 2).total = 5 ∧
    (list_packages fiveStore (fun _ => 0) none none 2 2).items.length = 2 ∧
    (decide (2 + 2 < 5) = true ∧ decide (2 > 0) = true) ∧
    list_packages fiveStore (fun _ => 0) none none 2 2 =
      ⟨[⟨verPkg "0.3.0", 3, "alice"⟩, ⟨verPkg "0.2.0", 2, "alice"⟩], 5, 2, 2⟩ := by
  exact ⟨fun _ _ _ _ _ _ _ _ => rfl, by rfl, by rfl, ⟨by rfl, by rfl⟩, by rfl⟩

/-! ## C1 — publish conflict and forced overwrite -/

theorem deletePackage_no_match (s : Store) (pid ver : String)
    (h : s.packages.find? (pkgKeyMatch pid ver) = none) :
    deletePackage s pid ver = s := by
  have hall := List.find?_eq_none.mp h
  have h1 : s.packages.filter (pkgKeyMatch pid ver) = [] :=
    List.filter_eq_nil_iff.mpr hall
  have h2 : s.packages.filter (fun p => !pkgKeyMatch pid ver p) = s.packages :=
    List.filter_eq_self.mpr (fun p hp => by simp [hall p hp])
  unfold deletePackage
  rw [h1, h2]
  rfl

/-- The inserted row of a forced publish. -/
def newRowOf (s : Store) (now : Nat) (body : PackageIn) (user : UserRow) : PkgRow :=
  ⟨s.nextPkgId, body.id, body.version, user.id, body, now⟩

theorem publish_force_eq (s : Store) (now : Nat) (body : PackageIn) (user : UserRow)
    (hseg : publisherSegment body.id = user.username)
    (hown : ∀ ex, s.packages.find? (pkgKeyMatch body.id body.version) = some ex →
      ex.ownerId = user.id) :
    publish s now body true user =
      .ok (insertPackage (deletePackage s body.id body.version) body user.id now) := by
  unfold publish
  rw [if_neg (by simp [hseg])]
  rcases hfind : s.packages.find? (pkgKeyMatch body.id body.version) with _ | ex
  · simp only
    rw [deletePackage_no_match s body.id body.version hfind]
  · simp only
    rw [if_neg (by simp), if_neg (by simp [hown ex hfind])]

theorem filter_not_self_nil {α : Type} (p : α → Bool) (l : List α) :
    (l.filter (fun a => !p a)).filter p = [] := by
  rw [List.filter_filter]
  simp

theorem publish_force_packages (s : Store) (now : Nat) (body : PackageIn) (user : UserRow) :
    (insertPackage (deletePackage s body.id body.version) body user.id now).packages =
      s.packages.filter (fun p => !pkgKeyMatch body.id body.version p) ++
        [newRowOf s now body user] := rfl

theorem newRow_key (s : Store) (now : Nat) (body : PackageIn) (user : UserRow) :
    pkgKeyMatch body.id body.version (newRowOf s now body user) = true := by
  simp [pkgKeyMatch, newRowOf]

theorem publish_ok_shape (s : Store) (now : Nat) (body : PackageIn) (force : Bool)
    (user : UserRow) (s2 : Store) (h : publish s now body force user = .ok s2) :
    s2 = insertPackage (deletePackage s body.id body.version) body user.id now := by
  unfold publish at h
  by_cases hseg : publisherSegment body.id ≠ user.username
  · rw [if_pos hseg] at h
    exact absurd h (by simp)
  · rw [if_neg hseg] at h
    rcases hfind : s.packages.find? (pkgKeyMatch body.id body.version) with _ | ex
    · rw [hfind] at h
      simp only at h
      rw [deletePackage_no_match s body.id body.version hfind]
      exact (Except.ok.inj h).symm
    · rw [hfind] at h
      simp only at h
      by_cases hf : force
      · subst hf
        simp only [Bool.not_true, Bool.false_eq_true, if_false] at h
        by_cases hown : ex.ownerId ≠ user.id
        · rw [if_pos hown] at h
          exact absurd h (by simp)
        · rw [if_neg hown] at h
          exact (Except.ok.inj h).symm
      · simp only [Bool.not_eq_true] at hf
        subst hf
        simp only [Bool.not_false, if_true] at h
        exact absurd h (by simp)

/-- C1 counterexample: in a store where `alice/samples/weather@0.1.0`
already exists, a publish of the same (identifier, version) with
`force = false` by the authenticated caller `bob` is rejected with
Forbidden (publisher-segment mismatch), not with the Conflict the claim
requires for every authenticated caller. -/
theorem c1_conflict_counterexample :
    (∃ p ∈ storeOne.packages, pkgKeyMatch wxPkg.id wxPkg.version p = true) ∧
    publish storeOne 20 wxPkg false bobU = .error .forbidden ∧
    publish storeOne 20 wxPkg false bobU ≠ .error .conflict := by
  refine ⟨⟨wxRow, by decide, by decide⟩, by rfl, ?_⟩
  intro h
  rw [show publish storeOne 20 wxPkg false bobU = .error .forbidden from rfl] at h
  simp at h

/-- C1 (amended): for a caller whose username equals the identifier
publisher segment, publish yields Conflict when the (identifier, version)
exists and `force` is false; with `force` it yields Forbidden unless the
caller owns the existing row, and otherwise removes the old row and
inserts the new one, leaving the new payload as the only row under that
key; hence after two forced publishes by the true owner exactly the
latest payload is stored under the key and retrievable through
`get_package`. A caller with a mismatched username is rejected with
Forbidden before the conflict check. -/
theorem c1_publish_amended (s : Store) (now : Nat) (body : PackageIn) (user : UserRow)
    (hseg : publisherSegment body.id = user.username) :
    ((∃ p ∈ s.packages, pkgKeyMatch body.id body.version p = true) →
        publish s now body false user = .error .conflict) ∧
    (∀ ex, s.packages.find? (pkgKeyMatch body.id body.version) = some ex →
        ex.ownerId ≠ user.id → publish s now body true user = .error .forbidden) ∧
    (∀ ex, s.packages.find? (pkgKeyMatch body.id body.version) = some ex →
        ex.ownerId = user.id →
        ∃ s2, publish s now body true user = .ok s2 ∧
          s2.packages = s.packages.filter (fun p => !pkgKeyMatch body.id body.version p) ++
            [newRowOf s now body user] ∧
          s2.packages.filter (pkgKeyMatch body.id body.version) = [newRowOf s now body user] ∧
          s2.users = s.users) ∧
    (∀ t1 t2 s1 s2 body2, publish s t1 body true user = .ok s1 →
        body2.id = body.id → body2.version = body.version →
        publish s1 t2 body2 true user = .ok s2 →
        s2.packages.filter (pkgKeyMatch body.id body.version) = [newRowOf s1 t2 body2 user] ∧
        (user ∈ s.users → ∀ pub ns ds, body.id = pub ++ "/" ++ ns ++ "/" ++ ds →
          ∃ out, get_package s2 pub ns ds body.version = .ok out ∧
            out.data = body2 ∧ out.published_at = t2)) := by
  have hkeyfilter : ∀ (s3 : Store) (t : Nat) (b2 : PackageIn),
      b2.id = body.id → b2.version = body.version →
      (insertPackage (deletePackage s3 b2.id b2.version) b2 user.id t).packages.filter
        (pkgKeyMatch body.id body.version) = [newRowOf s3 t b2 user] := by
    intro s3 t b2 hid hver
    rw [publish_force_packages]
    rw [List.filter_append]
    rw [hid, hver, filter_not_self_nil]
    simp [pkgKeyMatch, newRowOf, hid, hver]
  refine ⟨?_, ?_, ?_, ?_⟩
  · intro hex
    have hfind : (s.packages.find? (pkgKeyMatch body.id body.version)).isSome := by
      rcases hex with ⟨p, hp, hkey⟩
      exact List.find?_isSome.mpr ⟨p, hp, hkey⟩
    rcases Option.isSome_iff_exists.mp hfind with ⟨ex, hx⟩
    unfold publish
    rw [if_neg (by simp [hseg]), hx]
    simp
  · intro ex hfind hne
    unfold publish
    rw [if_neg (by simp [hseg]), hfind]
    simp only
    rw [if_neg (by simp), if_pos (by simp [hne])]
  · intro ex hfind hown
    refine ⟨insertPackage (deletePackage s body.id body.version) body user.id now,
      publish_force_eq s now body user hseg (fun e he => by rw [hfind] at he; cases he; exact hown),
      publish_force_packages s now body user, ?_, rfl⟩
    exact hkeyfilter s now body rfl rfl
  · intro t1 t2 s1 s2 body2 hpub1 hid2 hver2 hpub2
    have hshape2 := publish_ok_shape s1 t2 body2 true user s2 hpub2
    have hfilter2 : s2.packages.filter (pkgKeyMatch body.id body.version) =
        [newRowOf s1 t2 body2 user] := by
      rw [hshape2]
      exact hkeyfilter s1 t2 body2 hid2 hver2
    refine ⟨hfilter2, ?_⟩
    intro humem pub ns ds hpid
    have hshape1 := publish_ok_shape s t1 body true user s1 hpub1
    have husers1 : s1.users = s.users := by rw [hshape1]; rfl
    have husers2 : s2.users = s1.users := by rw [hshape2]; rfl
    have hfindu : (s2.users.find? (fun u => u.id = (newRowOf s1 t2 body2 user).ownerId)).isSome := by
      refine List.find?_isSome.mpr ⟨user, ?_, by simp [newRowOf]⟩
      rw [husers2, husers1]; exact humem
    rcases Option.isSome_iff_exists.mp hfindu with ⟨u, hu⟩
    have hpidkey : pub ++ "/" ++ ns ++ "/" ++ ds = body.id := hpid.symm
    refine ⟨⟨body2, t2, u.username⟩, ?_, rfl, rfl⟩
    have hgp : get_package s2 pub ns ds body.version =
        (match (joinRows s2 (s2.packages.filter
            (pkgKeyMatch (pub ++ "/" ++ ns ++ "/" ++ ds) body.version))).head? with
         | none => Except.error ApiError.notFound
         | some r => Except.ok (rowToOut r)) := rfl
    rw [hgp, hpidkey, hfilter2]
    simp only [joinRows, List.filterMap_cons, List.filterMap_nil, hu, Option.map_some]
    rfl

/-- C1 witness: Alice, whose username matches the publisher segment,
republishes her existing record without force and receives Conflict. -/
theorem c1_publish_amended_witness :
    publish storeOne 20 wxPkg false aliceU = .error .conflict :=
  (c1_publish_amended storeOne 20 wxPkg aliceU (by decide)).1 ⟨wxRow, by decide, by decide⟩

/-! ## C3 — tag filtering -/

/-- A payload whose title is `climate` and whose tag list is empty. -/
def climatePkg : PackageIn :=
  ⟨"alice/data/pkg", "1.0", "climate", none, none, ⟨"A", none⟩, [],
    [⟨"u", "csv", none, none⟩]⟩

/-- The stored row holding `climatePkg`. -/
def climateRow : PkgRow := ⟨1, "alice/data/pkg", "1.0", 1, climatePkg, 1⟩

/-- A store containing only `climateRow`. -/
def climateStore : Store :=
  { users := [aliceU]
    tokens := []
    packages := [climateRow]
    ftsAvailable := true
    fts := [toDoc climateRow]
    nextUserId := 2
    nextTokenId := 1
    nextPkgId := 2 }

/-- C3 counterexample: the stored record carries no tags at all, yet the
search with tag filter `climate` returns it, because the filter is a
substring test for `"climate"` against the whole serialized payload and
the record's title field supplies that substring. -/
theorem c3_tag_filter_counterexample :
    climatePkg.tags = [] ∧
    (list_packages climateStore (fun _ => 0) none (some "climate") 20 0).total = 1 ∧
    (list_packages climateStore (fun _ => 0) none (some "climate") 20 0).items =
      [⟨climatePkg, 1, "alice"⟩] := by
  exact ⟨rfl, by rfl, by rfl⟩

/-! ## LIKE-pattern bridge: `%literal%` patterns are substring tests -/

theorem likeMatchF_adequate : ∀ fuel fuel2 ps ts, ps.length + ts.length < fuel →
    ps.length + ts.length < fuel2 → likeMatchF fuel ps ts = likeMatchF fuel2 ps ts := by
  intro fuel
  induction fuel with
  | zero => intro fuel2 ps ts h1 _; omega
  | succ f ih =>
      intro fuel2 ps ts h1 h2
      cases fuel2 with
      | zero => omega
      | succ f2 =>
          match ps, ts with
          | [], [] => rfl
          | [], _ :: _ => rfl
          | '%' :: ps2, ts =>
              show (likeMatchF f ps2 ts || _) = (likeMatchF f2 ps2 ts || _)
              simp only [List.length_cons] at h1 h2
              rw [ih f2 ps2 ts (by omega) (by omega)]
              cases ts with
              | nil => rfl
              | cons t ts2 =>
                  show (_ || likeMatchF f ('%' :: ps2) ts2) = (_ || likeMatchF f2 ('%' :: ps2) ts2)
                  simp only [List.length_cons] at h1 h2
                  rw [ih f2 ('%' :: ps2) ts2 (by simp; omega) (by simp; omega)]
          | '_' :: ps2, ts =>
              cases ts with
              | nil => rfl
              | cons t ts2 =>
                  show likeMatchF f ps2 ts2 = likeMatchF f2 ps2 ts2
                  simp only [List.length_cons] at h1 h2
                  exact ih f2 ps2 ts2 (by omega) (by omega)
          | p :: ps2, ts =>
              by_cases hp : p = '%'
              · subst hp
                show (likeMatchF f ps2 ts || _) = (likeMatchF f2 ps2 ts || _)
                simp only [List.length_cons] at h1 h2
                rw [ih f2 ps2 ts (by omega) (by omega)]
                cases ts with
                | nil => rfl
                | cons t ts2 =>
                    show (_ || likeMatchF f ('%' :: ps2) ts2) = (_ || likeMatchF f2 ('%' :: ps2) ts2)
                    simp only [List.length_cons] at h1 h2
                    rw [ih f2 ('%' :: ps2) ts2 (by simp; omega) (by simp; omega)]
              · by_cases hp2 : p = '_'
                · subst hp2
                  cases ts with
                  | nil => rfl
                  | cons t ts2 =>
                      show likeMatchF f ps2 ts2 = likeMatchF f2 ps2 ts2
                      simp only [List.length_cons] at h1 h2
                      exact ih f2 ps2 ts2 (by omega) (by omega)
                · cases ts with
                  | nil => simp [likeMatchF, hp, hp2]
                  | cons t ts2 =>
                      simp only [List.length_cons] at h1 h2
                      simp only [likeMatchF, hp, hp2]
                      rw [ih f2 ps2 ts2 (by omega) (by omega)]

theorem likeMatch_eq_fuel (fuel : Nat) (ps ts : List Char)
    (h : ps.length + ts.length < fuel) : likeMatch ps ts = likeMatchF fuel ps ts :=
  likeMatchF_adequate _ fuel ps ts (by simp) h

theorem likeMatch_percent_eq (ps : List Char) (ts : List Char) :
    likeMatch ('%' :: ps) ts =
      (likeMatch ps ts ||
        (match ts with
         | [] => false
         | _ :: ts2 => likeMatch ('%' :: ps) ts2)) := by
  rw [likeMatch_eq_fuel (ps.length + ts.length + 2) ('%' :: ps) ts (by simp; omega)]
  show (likeMatchF (ps.length + ts.length + 1) ps ts || _) = _
  rw [← likeMatch_eq_fuel (ps.length + ts.length + 1) ps ts (by simp)]
  cases ts with
  | nil => rfl
  | cons t ts2 =>
      show (_ || likeMatchF (ps.length + (ts2.length + 1) + 1) ('%' :: ps) ts2) = _
      rw [← likeMatch_eq_fuel (ps.length + (ts2.length + 1) + 1) ('%' :: ps) ts2 (by simp; omega)]


theorem likeMatch_lit_cons (p : Char) (ps ts : List Char) (hp : p ≠ '%') (hp2 : p ≠ '_') :
    likeMatch (p :: ps) ts =
      (match ts with
       | [] => false
       | t :: ts2 => (p.toLower = t.toLower : Bool) && likeMatch ps ts2) := by
  rw [likeMatch_eq_fuel (ps.length + ts.length + 2) (p :: ps) ts (by simp; omega)]
  cases ts with
  | nil => simp [likeMatchF, hp, hp2]
  | cons t ts2 =>
      simp only [likeMatchF, hp, hp2]
      rw [← likeMatch_eq_fuel (ps.length + (t :: ts2).length + 1) ps ts2 (by simp; omega)]

theorem likeMatch_lit_percent_iff (lit : List Char)
    (hw : ∀ c ∈ lit, c ≠ '%' ∧ c ≠ '_') (hl : ∀ c ∈ lit, c.toLower = c) :
    ∀ ts : List Char, (∀ c ∈ ts, c.toLower = c) →
      (likeMatch (lit ++ ['%']) ts = true ↔ lit <+: ts) := by
  induction lit with
  | nil =>
      intro ts ht
      simp only [List.nil_append]
      constructor
      · intro _
        exact List.nil_prefix
      · intro _
        induction ts with
        | nil => rw [likeMatch_percent_eq]; rfl
        | cons t ts2 ih2 =>
            rw [likeMatch_percent_eq]
            have := ih2 (fun c hc => ht c (by simp [hc]))
            simp [this]
  | cons c rest ih =>
      intro ts ht
      rw [show (c :: rest) ++ ['%'] = c :: (rest ++ ['%']) from rfl]
      rw [likeMatch_lit_cons c (rest ++ ['%']) ts
        (hw c (by simp)).1 (hw c (by simp)).2]
      cases ts with
      | nil => simp
      | cons t ts2 =>
          simp only [Bool.and_eq_true, decide_eq_true_eq]
          rw [hl c (by simp), ht t (by simp)]
          rw [ih (fun x hx => hw x (by simp [hx])) (fun x hx => hl x (by simp [hx]))
            ts2 (fun x hx => ht x (by simp [hx]))]
          rw [List.cons_prefix_cons]

theorem likeMatch_percent_iff (ps : List Char) :
    ∀ ts : List Char, (likeMatch ('%' :: ps) ts = true ↔
      ∃ n, likeMatch ps (ts.drop n) = true) := by
  intro ts
  induction ts with
  | nil =>
      rw [likeMatch_percent_eq]
      constructor
      · intro h
        exact ⟨0, by simpa using h⟩
      · rintro ⟨n, hn⟩
        simp only [List.drop_nil] at hn
        simp [hn]
  | cons t ts2 ih =>
      rw [likeMatch_percent_eq]
      constructor
      · intro h
        simp only [Bool.or_eq_true] at h
        rcases h with h1 | h2
        · exact ⟨0, h1⟩
        · rcases ih.mp h2 with ⟨n, hn⟩
          exact ⟨n + 1, hn⟩
      · rintro ⟨n, hn⟩
        cases n with
        | zero =>
            simp only [List.drop_zero] at hn
            simp [hn]
        | succ m =>
            have := ih.mpr ⟨m, hn⟩
            simp [this]

theorem likeMatch_contains_iff (lit txt : List Char)
    (hw : ∀ c ∈ lit, c ≠ '%' ∧ c ≠ '_') (hl : ∀ c ∈ lit, c.toLower = c)
    (ht : ∀ c ∈ txt, c.toLower = c) :
    (likeMatch ('%' :: (lit ++ ['%'])) txt = true ↔ lit <:+: txt) := by
  rw [likeMatch_percent_iff]
  constructor
  · rintro ⟨n, hn⟩
    have hpre := (likeMatch_lit_percent_iff lit hw hl (txt.drop n)
      (fun c hc => ht c (List.mem_of_mem_drop hc))).mp hn
    exact hpre.isInfix.trans (List.drop_suffix n txt).isInfix
  · intro hinf
    rcases List.infix_iff_prefix_suffix.mp hinf with ⟨t, hpre, hsuf⟩
    have hdrop : t = txt.drop (txt.length - t.length) := List.suffix_iff_eq_drop.mp hsuf
    refine ⟨txt.length - t.length, ?_⟩
    rw [likeMatch_lit_percent_iff lit hw hl (txt.drop (txt.length - t.length))
      (fun c hc => ht c (List.mem_of_mem_drop hc))]
    rw [← hdrop]
    exact hpre

/-! ## Character facts: case folding and escape-free characters -/

theorem alnum_iff (c : Char) : c.isAlphanum = true ↔
    (48 ≤ c.toNat ∧ c.toNat ≤ 57) ∨ (65 ≤ c.toNat ∧ c.toNat ≤ 90) ∨
      (97 ≤ c.toNat ∧ c.toNat ≤ 122) := by
  simp [Char.isAlphanum, Char.isAlpha, Char.isUpper, Char.isLower, Char.isDigit,
    Char.le_def, UInt32.le_def, BitVec.le_def, Char.toNat, UInt32.toNat]
  omega

theorem toNat_ofNat_letter {m : Nat} (h1 : 97 ≤ m) (h2 : m ≤ 122) :
    (Char.ofNat m).toNat = m := by
  have hv : m.isValidChar := Or.inl (by omega)
  simp [Char.ofNat, hv, Char.toNat, Char.ofNatAux, UInt32.toNat, UInt32.ofNat']

theorem toLower_toNat (c : Char) :
    c.toLower.toNat = if 65 ≤ c.toNat ∧ c.toNat ≤ 90 then c.toNat + 32 else c.toNat := by
  show (if c.toNat ≥ 65 ∧ c.toNat ≤ 90 then Char.ofNat (c.toNat + 32) else c).toNat = _
  by_cases h : 65 ≤ c.toNat ∧ c.toNat ≤ 90
  · rw [if_pos ⟨h.1, h.2⟩, if_pos h]
    exact toNat_ofNat_letter (by omega) (by omega)
  · rw [if_neg h, if_neg h]

theorem toLower_idem (c : Char) : c.toLower.toLower = c.toLower := by
  have h1 := toLower_toNat c
  show (if c.toLower.toNat ≥ 65 ∧ c.toLower.toNat ≤ 90 then
      Char.ofNat (c.toLower.toNat + 32) else c.toLower) = c.toLower
  rw [if_neg]
  intro hc
  by_cases h : 65 ≤ c.toNat ∧ c.toNat ≤ 90 <;> simp [h] at h1 <;> omega

theorem mem_lowerChars_lower {l : List Char} {c : Char} (h : c ∈ lowerChars l) :
    c.toLower = c := by
  rcases List.mem_map.mp h with ⟨d, _, rfl⟩
  exact toLower_idem d

theorem isAlphanum_toLower (c : Char) (h : c.isAlphanum = true) :
    c.toLower.isAlphanum = true := by
  rw [alnum_iff] at h ⊢
  have h1 := toLower_toNat c
  by_cases hc : 65 ≤ c.toNat ∧ c.toNat ≤ 90 <;> simp [hc] at h1 <;> omega

theorem escFree_of_alnum (c : Char) (h : c.isAlphanum = true) :
    jsonEscapeChar c = String.singleton c := by
  have hb := (alnum_iff c).mp h
  have hq : c ≠ '"' := by intro he; subst he; revert hb; decide
  have hbs : c ≠ '\\' := by intro he; subst he; revert hb; decide
  have hn : c ≠ '\n' := by intro he; subst he; revert hb; decide
  have hr : c ≠ '\r' := by intro he; subst he; revert hb; decide
  have hta : c ≠ '\t' := by intro he; subst he; revert hb; decide
  have h8 : ¬c.toNat = 8 := by omega
  have h12 : ¬c.toNat = 12 := by omega
  have h32 : ¬c.toNat < 32 := by omega
  simp [jsonEscapeChar, hq, hbs, hn, hr, hta, h8, h12, h32]

theorem jsonEscape_append (a b : List Char) :
    jsonEscape (a ++ b) = jsonEscape a ++ jsonEscape b := by
  induction a with
  | nil => rfl
  | cons c t ih => simp [jsonEscape, ih]

theorem jsonEscape_escFree (l : List Char)
    (h : ∀ c ∈ l, jsonEscapeChar c = String.singleton c) : jsonEscape l = l := by
  induction l with
  | nil => rfl
  | cons c t ih =>
      show (jsonEscapeChar c).data ++ jsonEscape t = c :: t
      rw [h c (by simp), ih (fun x hx => h x (by simp [hx]))]
      rfl

theorem infix_append_left3 {α : Type} {l₁ l₂ : List α} (h : l₁ <:+: l₂) (pre : List α) :
    l₁ <:+: pre ++ l₂ := by
  rcases h with ⟨s, t, rfl⟩
  exact ⟨pre ++ s, t, by simp⟩

theorem infix_append_right3 {α : Type} {l₁ l₂ : List α} (h : l₁ <:+: l₂) (suf : List α) :
    l₁ <:+: l₂ ++ suf := by
  rcases h with ⟨s, t, rfl⟩
  exact ⟨s, t ++ suf, by simp⟩

theorem infix_cons3 {α : Type} {l₁ l₂ : List α} (h : l₁ <:+: l₂) (c : α) :
    l₁ <:+: c :: l₂ := by
  rcases h with ⟨s, t, rfl⟩
  exact ⟨c :: s, t, rfl⟩

theorem mem_jsonArrSep_within {x : String} : ∀ {l : List String}, x ∈ l →
    x.data <:+: (jsonArrSep l).data := by
  intro l
  induction l with
  | nil => intro h; cases h
  | cons a t ih =>
      intro h
      cases t with
      | nil =>
          rcases List.mem_singleton.mp h with rfl
          exact List.infix_rfl
      | cons b u =>
          rcases List.mem_cons.mp h with rfl | hmem
          · show x.data <:+: (x ++ "," ++ jsonArrSep (b :: u)).data
            rw [String.data_append, String.data_append]
            exact infix_append_right3 (infix_append_right3 List.infix_rfl _) _
          · show x.data <:+: (a ++ "," ++ jsonArrSep (b :: u)).data
            rw [String.data_append, String.data_append]
            rw [List.append_assoc]
            exact infix_append_left3 (infix_append_left3 (ih hmem) _) _

theorem dumpStrList_within {x : String} {l : List String} (h : x ∈ l) :
    (jsonStr x).data <:+: (dumpStrList l).data := by
  show (jsonStr x).data <:+: ("[" ++ jsonArrSep (l.map jsonStr) ++ "]").data
  rw [String.data_append, String.data_append]
  rw [List.append_assoc]
  exact infix_append_left3
    (infix_append_right3 (mem_jsonArrSep_within (List.mem_map_of_mem jsonStr h)) _) _

theorem dumpPackage_tags_within (b : PackageIn) :
    (dumpStrList b.tags).data <:+: (dumpPackage b).data := by
  unfold dumpPackage
  simp only [String.data_append, List.append_assoc]
  repeat
    first
    | exact infix_append_right3 List.infix_rfl _
    | apply infix_append_left3
    | apply infix_cons3

theorem dumpPackage_title_within (b : PackageIn) :
    (jsonStr b.title).data <:+: (dumpPackage b).data := by
  unfold dumpPackage
  simp only [String.data_append, List.append_assoc]
  repeat
    first
    | exact infix_append_right3 List.infix_rfl _
    | apply infix_append_left3
    | apply infix_cons3

theorem mkPackageList_total (i : List PackageOut) (tot l o : Nat) (a b : Bool) :
    (mkPackageList i tot l o a b).total = tot := rfl

theorem mkPackageList_items (i : List PackageOut) (tot l o : Nat) (a b : Bool) :
    (mkPackageList i tot l o a b).items = i := rfl

/-- A payload tagged `["Climate"]` with a neutral title. -/
def climateTagPkg : PackageIn :=
  ⟨"alice/data/tagged", "1.0", "Tagged", none, none, ⟨"A", none⟩, ["Climate"],
    [⟨"u", "csv", none, none⟩]⟩

/-- A stored row holding `climateTagPkg`. -/
def climateTagRow : PkgRow := ⟨1, "alice/data/tagged", "1.0", 1, climateTagPkg, 1⟩

set_option maxHeartbeats 1600000 in
/-- C3 (amended): for a wildcard-free non-empty filter value, the tag
filter admits a record exactly when the lowercased serialized payload
contains the double-quoted lowercased filter value as a substring. A
record whose tag list contains the filter value case-insensitively (and
needing no JSON escaping) is always admitted, and the filter is an exact
token test on tags — a record tagged `["Climate"]` matches `climate` and
not `clim` — but a record without the tag can also be admitted when some
other payload string field equals the filter value. With only the tag
filter active, the search counts exactly the admitted records. -/
theorem c3_tag_filter_amended (s : Store) (rank : Nat → Int) (t : String)
    (limit offset : Nat)
    (hw : ∀ c ∈ (lowerStr t).data, c ≠ '%' ∧ c ≠ '_') (ht0 : t ≠ "") :
    (∀ p : PkgRow, tagCond t p = true ↔
      ('"' :: ((lowerStr t).data ++ ['"'])) <:+: (lowerStr (dumpPackage p.data)).data) ∧
    (∀ p : PkgRow,
      (∃ tg ∈ p.data.tags, lowerStr tg = lowerStr t ∧
          ∀ c ∈ tg.data, jsonEscapeChar c = String.singleton c) →
        tagCond t p = true) ∧
    (tagCond "climate" climateTagRow = true ∧ tagCond "clim" climateTagRow = false) ∧
    (list_packages s rank none (some t) limit offset).total =
      (joinRows s (s.packages.filter (fun p => tagCond t p))).length := by
  have hiff : ∀ p : PkgRow, tagCond t p = true ↔
      ('"' :: ((lowerStr t).data ++ ['"'])) <:+: (lowerStr (dumpPackage p.data)).data := by
    intro p
    show likeMatch ("%\"" ++ lowerStr t ++ "\"%").data (lowerStr (dumpPackage p.data)).data
        = true ↔ _
    have hpat : ("%\"" ++ lowerStr t ++ "\"%").data =
        '%' :: (('"' :: ((lowerStr t).data ++ ['"'])) ++ ['%']) := by
      simp [String.data_append]
    rw [hpat]
    refine likeMatch_contains_iff _ _ ?_ ?_ ?_
    · intro c hc
      rcases List.mem_cons.mp hc with rfl | hc2
      · exact ⟨by decide, by decide⟩
      · rcases List.mem_append.mp hc2 with hc3 | hc4
        · exact hw c hc3
        · rcases List.mem_singleton.mp hc4 with rfl
          exact ⟨by decide, by decide⟩
    · intro c hc
      rcases List.mem_cons.mp hc with rfl | hc2
      · decide
      · rcases List.mem_append.mp hc2 with hc3 | hc4
        · exact mem_lowerChars_lower hc3
        · rcases List.mem_singleton.mp hc4 with rfl
          decide
    · intro c hc
      exact mem_lowerChars_lower hc
  refine ⟨hiff, ?_, ⟨by decide, by decide⟩, ?_⟩
  · intro p hex
    rcases hex with ⟨tg, htg, hlow, hesc⟩
    rw [hiff p]
    have h1 : ('"' :: (tg.data ++ ['"'])) <:+: (dumpPackage p.data).data := by
      have h2 := (dumpStrList_within htg).trans (dumpPackage_tags_within p.data)
      have h3 : (jsonStr tg).data = '"' :: (tg.data ++ ['"']) := by
        show '"' :: (jsonEscape tg.data ++ ['"']) = _
        rw [jsonEscape_escFree tg.data hesc]
      rw [h3] at h2
      exact h2
    have h4 := h1.map Char.toLower
    simp only [List.map_cons, List.map_append, List.map_cons, List.map_nil] at h4
    have h5 : Char.toLower '"' = '"' := by decide
    rw [h5] at h4
    have h6 : List.map Char.toLower tg.data = (lowerStr t).data := by
      show lowerChars tg.data = _
      have := congrArg String.data hlow
      exact this
    rw [h6] at h4
    exact h4
  · unfold list_packages
    simp [Option.getD, mkPackageList_total, decide_eq_false ht0]

/-- C3 witness: the spec's own example record, evaluated concretely. -/
theorem c3_tag_filter_amended_witness :
    tagCond "climate" climateTagRow = true ∧ tagCond "clim" climateTagRow = false :=
  (c3_tag_filter_amended climateStore (fun _ => 0) "climate" 20 0
    (by decide) (by decide)).2.2.1

/-! ## C4 — version listing order and latest -/

/-- C4: `listVersions` fails NotFound exactly when no version of the
identifier is stored, and otherwise returns all its stored versions
ordered by publication timestamp descending with ties broken by row id
(insertion order) descending; `getLatest` fails NotFound in the same
case and otherwise equals the first element of that ordering. -/
theorem c4_versions_ordering (s : Store) (pub ns ds : String)
    (hje : ∀ p ∈ s.packages, ∃ u ∈ s.users, u.id = p.ownerId) :
    (get_all_versions s pub ns ds = .error .notFound ↔
      s.packages.filter
        (fun p => (p.packageId = pub ++ "/" ++ ns ++ "/" ++ ds : Bool)) = []) ∧
    (get_latest s pub ns ds = .error .notFound ↔
      s.packages.filter
        (fun p => (p.packageId = pub ++ "/" ++ ns ++ "/" ++ ds : Bool)) = []) ∧
    ∀ res, get_all_versions s pub ns ds = .ok res →
      res.id = pub ++ "/" ++ ns ++ "/" ++ ds ∧
      res.total = res.versions.length ∧
      ∃ rows : List (PkgRow × UserRow),
        res.versions = rows.map rowToOut ∧
        (rows.map Prod.fst).Perm (s.packages.filter
          (fun p => (p.packageId = pub ++ "/" ++ ns ++ "/" ++ ds : Bool))) ∧
        (∀ r ∈ rows, r.2 ∈ s.users ∧ r.2.id = r.1.ownerId) ∧
        rows.Pairwise verLe ∧
        ∃ out, get_latest s pub ns ds = .ok out ∧ res.versions.head? = some out := by
  have hfst := joinRows_map_fst s
    (s.packages.filter (fun p => (p.packageId = pub ++ "/" ++ ns ++ "/" ++ ds : Bool)))
    (fun p hp => hje p (List.mem_of_mem_filter hp))
  have hperm : ((joinRows s (s.packages.filter
        (fun p => (p.packageId = pub ++ "/" ++ ns ++ "/" ++ ds : Bool)))).insertionSort
        verLe).Perm
      (joinRows s (s.packages.filter
        (fun p => (p.packageId = pub ++ "/" ++ ns ++ "/" ++ ds : Bool)))) :=
    List.perm_insertionSort verLe _
  have hnil : ((joinRows s (s.packages.filter
        (fun p => (p.packageId = pub ++ "/" ++ ns ++ "/" ++ ds : Bool)))).insertionSort
        verLe) = [] ↔
      s.packages.filter
        (fun p => (p.packageId = pub ++ "/" ++ ns ++ "/" ++ ds : Bool)) = [] := by
    constructor
    · intro h
      rw [h] at hperm
      have hJL := hperm.symm.eq_nil
      rw [← hfst, hJL]
      rfl
    · intro h
      have hJL : joinRows s (s.packages.filter
          (fun p => (p.packageId = pub ++ "/" ++ ns ++ "/" ++ ds : Bool))) = [] := by
        rw [h]
        rfl
      rw [hJL]
      rfl
  rcases hrows : ((joinRows s (s.packages.filter
      (fun p => (p.packageId = pub ++ "/" ++ ns ++ "/" ++ ds : Bool)))).insertionSort
      verLe) with _ | ⟨r0, rest⟩
  · refine ⟨?_, ?_, ?_⟩
    · simp only [get_all_versions, hrows]
      simp only [true_iff]
      exact hnil.mp hrows
    · simp only [get_latest, hrows]
      simp only [List.head?_nil, true_iff]
      exact hnil.mp hrows
    · intro res hres
      simp only [get_all_versions, hrows] at hres
      exact absurd hres (by simp)
  · have hne : s.packages.filter
        (fun p => (p.packageId = pub ++ "/" ++ ns ++ "/" ++ ds : Bool)) ≠ [] := by
      intro h
      rw [← hnil] at h
      rw [hrows] at h
      exact absurd h (by simp)
    refine ⟨?_, ?_, ?_⟩
    · simp only [get_all_versions, hrows]
      constructor
      · intro h
        exact absurd h (by simp)
      · intro h
        exact absurd h hne
    · simp only [get_latest, hrows]
      simp only [List.head?_cons]
      constructor
      · intro h
        exact absurd h (by simp)
      · intro h
        exact absurd h hne
    · intro res hres
      simp only [get_all_versions, hrows] at hres
      have hres2 : res = ⟨pub ++ "/" ++ ns ++ "/" ++ ds,
          (r0 :: rest).map rowToOut, ((r0 :: rest).map rowToOut).length⟩ := by
        have := Except.ok.inj hres
        exact this.symm
      subst hres2
      refine ⟨rfl, rfl, r0 :: rest, rfl, ?_, ?_, ?_, ?_⟩
      · rw [← hfst]
        rw [← hrows]
        exact (List.perm_insertionSort verLe _).map Prod.fst
      · intro r hr
        have hr2 : r ∈ (joinRows s (s.packages.filter
            (fun p => (p.packageId = pub ++ "/" ++ ns ++ "/" ++ ds : Bool)))) := by
          rw [← hrows] at hr
          exact ((List.mem_insertionSort verLe).mp hr)
        rcases joinRows_mem hr2 with ⟨_, h2, h3⟩
        exact ⟨h2, h3⟩
      · rw [← hrows]
        exact sorted_insertionSort_mem verLe _
          (fun x _ y _ => verLe_total x y)
          (fun x _ y _ z _ hxy hyz => verLe_trans x y z hxy hyz)
      · refine ⟨rowToOut r0, ?_, by simp⟩
        simp only [get_latest, hrows]
        rfl

/-- C4 witness: an identifier with no stored version yields NotFound. -/
theorem c4_versions_ordering_witness :
    get_all_versions storeOne "alice" "samples" "unknown" = .error .notFound :=
  (c4_versions_ordering storeOne "alice" "samples" "unknown" (by decide)).1.mpr (by decide)

/-! ## Reachable-state invariant -/

/-- The invariant maintained by every operation from a fresh database:
package row ids are unique and below the id counter, usernames are
unique, every package row's owner is a stored user whose username equals
the identifier's publisher segment, and (when the FTS5 engine is
available) the index holds exactly one document per package row. -/
structure StoreInv (s : Store) : Prop where
  pkgNodup : (s.packages.map PkgRow.id).Nodup
  pkgLt : ∀ p ∈ s.packages, p.id < s.nextPkgId
  unames : (s.users.map UserRow.username).Nodup
  owners : ∀ p ∈ s.packages, ∃ u ∈ s.users, u.id = p.ownerId ∧
    u.username = publisherSegment p.packageId
  sync : s.ftsAvailable = true → s.fts = s.packages.map toDoc

theorem StoreInv_init (avail : Bool) : StoreInv (initStore avail) := by
  refine ⟨by simp [initStore], ?_, by simp [initStore], ?_, ?_⟩
  · intro p hp
    simp [initStore] at hp
  · intro p hp
    simp [initStore] at hp
  · intro _
    simp [initStore]

theorem nodup_snoc {α : Type} (l : List α) (a : α) :
    (l ++ [a]).Nodup ↔ l.Nodup ∧ a ∉ l := by
  rw [List.nodup_append]
  simp

theorem get_current_user_ok_mem {s : Store} {now : Nat} {cred : Option String}
    {u : UserRow} (h : get_current_user s now cred = .ok u) : u ∈ s.users := by
  cases cred with
  | none => exact absurd h (by simp [get_current_user])
  | some tok =>
      rcases hL : ((s.tokens.filter
          (fun t => (t.token = tok : Bool) && decide (now < t.expiresAt))).filterMap
          (fun t => s.users.find? (fun v => v.id = t.userId))).head? with _ | v
      · simp only [get_current_user, hL] at h
        exact absurd h (by simp)
      · simp only [get_current_user, hL] at h
        have hv : v = u := by simpa using h
        subst hv
        rcases List.mem_filterMap.mp (List.mem_of_mem_head? hL) with ⟨t, _, hfind⟩
        exact List.mem_of_find?_eq_some hfind

theorem publish_ok_seg {s : Store} {now : Nat} {body : PackageIn} {force : Bool}
    {user : UserRow} {s2 : Store} (h : publish s now body force user = .ok s2) :
    publisherSegment body.id = user.username := by
  by_cases hseg : publisherSegment body.id ≠ user.username
  · unfold publish at h
    rw [if_pos hseg] at h
    exact absurd h (by simp)
  · exact Classical.not_not.mp hseg

theorem foldl_filter_all {α β : Type} (g : β → α → Bool) :
    ∀ (R : List β) (l : List α),
      R.foldl (fun f r => f.filter (fun d => g r d)) l =
        l.filter (fun d => R.all (fun r => g r d)) := by
  intro R
  induction R with
  | nil =>
      intro l
      simp
  | cons r R2 ih =>
      intro l
      show R2.foldl _ (l.filter (fun d => g r d)) = _
      rw [ih (l.filter (fun d => g r d))]
      rw [List.filter_filter]
      apply List.filter_congr
      intro a _
      simp [Bool.and_comm]

theorem deletePackage_sync (s : Store) (pid ver : String)
    (hnodup : (s.packages.map PkgRow.id).Nodup)
    (hsync : s.fts = s.packages.map toDoc) (havail : s.ftsAvailable = true) :
    (deletePackage s pid ver).fts = (deletePackage s pid ver).packages.map toDoc := by
  show ((s.packages.filter (pkgKeyMatch pid ver)).foldl
      (fun f r => ftsDeleteRow s.ftsAvailable f r.id) s.fts) =
    (s.packages.filter (fun p => !pkgKeyMatch pid ver p)).map toDoc
  have hstep : (fun (f : List FtsDoc) (r : PkgRow) => ftsDeleteRow s.ftsAvailable f r.id) =
      fun f r => f.filter (fun d => (d.rowid ≠ r.id : Bool)) := by
    funext f r
    simp [ftsDeleteRow, havail]
  rw [hstep]
  refine (foldl_filter_all (fun (r : PkgRow) (d : FtsDoc) => (d.rowid ≠ r.id : Bool))
    (s.packages.filter (pkgKeyMatch pid ver)) s.fts).trans ?_
  rw [hsync]
  rw [List.filter_map]
  congr 1
  apply List.filter_congr
  intro p hp
  by_cases hkey : pkgKeyMatch pid ver p = true
  · have hmem : p ∈ s.packages.filter (pkgKeyMatch pid ver) :=
      List.mem_filter.mpr ⟨hp, hkey⟩
    have : (s.packages.filter (pkgKeyMatch pid ver)).all
        (fun r => ((toDoc p).rowid ≠ r.id : Bool)) = false := by
      apply Bool.eq_false_iff.mpr
      intro hall
      have := List.all_eq_true.mp hall p hmem
      simp [toDoc] at this
    simp only [Function.comp]
    rw [this, hkey]
    rfl
  · have hkey2 : pkgKeyMatch pid ver p = false := Bool.eq_false_iff.mpr hkey
    have : (s.packages.filter (pkgKeyMatch pid ver)).all
        (fun r => ((toDoc p).rowid ≠ r.id : Bool)) = true := by
      apply List.all_eq_true.mpr
      intro r hr
      rcases List.mem_filter.mp hr with ⟨hrmem, hrkey⟩
      simp only [toDoc, decide_eq_true_eq]
      intro heq
      have := List.inj_on_of_nodup_map hnodup hp hrmem heq
      subst this
      rw [hrkey] at hkey2
      exact absurd hkey2 (by simp)
    simp only [Function.comp]
    rw [this, hkey2]
    rfl

theorem StoreInv_insert_delete (s : Store) (now : Nat) (body : PackageIn)
    (user : UserRow) (hInv : StoreInv s) (hmem : user ∈ s.users)
    (hseg : publisherSegment body.id = user.username) :
    StoreInv (insertPackage (deletePackage s body.id body.version) body user.id now) := by
  have hsub : ∀ p ∈ s.packages.filter (fun p => !pkgKeyMatch body.id body.version p),
      p ∈ s.packages := fun p hp => List.mem_of_mem_filter hp
  refine ⟨?_, ?_, hInv.unames, ?_, ?_⟩
  · show ((s.packages.filter (fun p => !pkgKeyMatch body.id body.version p) ++
      [newRowOf s now body user]).map PkgRow.id).Nodup
    rw [List.map_append]
    simp only [List.map_cons, List.map_nil]
    rw [nodup_snoc]
    constructor
    · exact ((List.filter_sublist s.packages).map PkgRow.id).nodup hInv.pkgNodup
    · intro hmem2
      rcases List.mem_map.mp hmem2 with ⟨p, hp, hid⟩
      have := hInv.pkgLt p (hsub p hp)
      simp only [newRowOf] at hid
      omega
  · intro p hp
    rcases List.mem_append.mp hp with hp1 | hp2
    · have := hInv.pkgLt p (hsub p hp1)
      show p.id < s.nextPkgId + 1
      omega
    · rcases List.mem_singleton.mp hp2 with rfl
      show s.nextPkgId < s.nextPkgId + 1
      omega
  · intro p hp
    rcases List.mem_append.mp hp with hp1 | hp2
    · exact hInv.owners p (hsub p hp1)
    · rcases List.mem_singleton.mp hp2 with rfl
      exact ⟨user, hmem, rfl, hseg.symm⟩
  · intro havail
    have havail2 : s.ftsAvailable = true := havail
    have hdel := deletePackage_sync s body.id body.version hInv.pkgNodup
      (hInv.sync havail2) havail2
    show ftsInsert (deletePackage s body.id body.version) (newRowOf s now body user) = _
    unfold ftsInsert
    rw [if_pos (show (deletePackage s body.id body.version).ftsAvailable = true from havail2)]
    rw [hdel]
    show _ = (s.packages.filter (fun p => !pkgKeyMatch body.id body.version p) ++
      [newRowOf s now body user]).map toDoc
    rw [List.map_append]
    rfl

theorem StoreInv_delete (s : Store) (pid ver : String) (hInv : StoreInv s) :
    StoreInv (deletePackage s pid ver) := by
  have hsub : ∀ p ∈ s.packages.filter (fun p => !pkgKeyMatch pid ver p),
      p ∈ s.packages := fun p hp => List.mem_of_mem_filter hp
  refine ⟨?_, ?_, hInv.unames, ?_, ?_⟩
  · exact ((List.filter_sublist s.packages).map PkgRow.id).nodup hInv.pkgNodup
  · intro p hp
    exact hInv.pkgLt p (hsub p hp)
  · intro p hp
    exact hInv.owners p (hsub p hp)
  · intro havail
    exact deletePackage_sync s pid ver hInv.pkgNodup (hInv.sync havail) havail

theorem backfill_id (s : Store) (hInv : StoreInv s) : backfillFts s = s := by
  unfold backfillFts
  by_cases havail : s.ftsAvailable = true
  · rw [if_pos havail]
    have hfilter : s.packages.filter
        (fun p => !(s.fts.any (fun d => (d.rowid = p.id : Bool)))) = [] := by
      apply List.filter_eq_nil_iff.mpr
      intro p hp
      have : toDoc p ∈ s.fts := by
        rw [hInv.sync havail]
        exact List.mem_map_of_mem toDoc hp
      have hany : s.fts.any (fun d => (d.rowid = p.id : Bool)) = true :=
        List.any_eq_true.mpr ⟨toDoc p, this, by simp [toDoc]⟩
      simp [hany]
    rw [hfilter]
    simp
  · rw [if_neg havail]

theorem StoreInv_applyOp (s : Store) (op : Op) (h : StoreInv s) :
    StoreInv (applyOp s op) := by
  cases op with
  | register username pwHash =>
      show StoreInv (registerUser s username pwHash)
      unfold registerUser
      rcases hfind : s.users.find? (fun u => (u.username = username : Bool)) with _ | u
      · rw [hfind]
        simp only
        refine StoreInv.mk h.pkgNodup h.pkgLt ?_ ?_ h.sync
        · show ((s.users ++ [(⟨s.nextUserId, username, pwHash⟩ : UserRow)]).map UserRow.username).Nodup
          rw [List.map_append]
          simp only [List.map_cons, List.map_nil]
          rw [nodup_snoc]
          refine ⟨h.unames, ?_⟩
          intro hmem2
          rcases List.mem_map.mp hmem2 with ⟨u, hu, huname⟩
          have := List.find?_eq_none.mp hfind u hu
          simp [huname] at this
        · intro p hp
          rcases h.owners p hp with ⟨u, hu, h1, h2⟩
          exact ⟨u, by simp [hu], h1, h2⟩
      · rw [hfind]
        exact h
  | issueToken username pw tokenVal now =>
      show StoreInv (issueToken s username pw tokenVal now)
      unfold issueToken
      rcases hfind : s.users.find? (fun u => (u.username = username : Bool)) with _ | u
      · rw [hfind]
        exact h
      · rw [hfind]
        simp only
        split
        · exact StoreInv.mk h.pkgNodup h.pkgLt h.unames h.owners h.sync
        · exact h
  | publish cred now body force =>
      show StoreInv (match get_current_user s now cred with
        | .error _ => s
        | .ok user => match publish s now body force user with
          | .error _ => s
          | .ok s2 => s2)
      rcases hauth : get_current_user s now cred with _ | user
      · simp only
        exact h
      · simp only
        rcases hpub : publish s now body force user with _ | s2
        · simp only
          exact h
        · simp only
          rw [publish_ok_shape s now body force user s2 hpub]
          exact StoreInv_insert_delete s now body user h
            (get_current_user_ok_mem hauth) (publish_ok_seg hpub)
  | unpublish cred now pub ns ds ver =>
      show StoreInv (match get_current_user s now cred with
        | .error _ => s
        | .ok user => match unpublish s pub ns ds ver user with
          | .error _ => s
          | .ok s2 => s2)
      rcases hauth : get_current_user s now cred with _ | user
      · simp only
        exact h
      · simp only
        rcases hunp : unpublish s pub ns ds ver user with _ | s2
        · simp only
          exact h
        · simp only
          have h2 : (match s.packages.find? (pkgKeyMatch (pub ++ "/" ++ ns ++ "/" ++ ds) ver) with
              | none => Except.error ApiError.notFound
              | some row =>
                  if row.ownerId ≠ user.id then Except.error ApiError.forbidden
                  else Except.ok (deletePackage s (pub ++ "/" ++ ns ++ "/" ++ ds) ver)) =
              Except.ok s2 := hunp
          rcases hfind : s.packages.find? (pkgKeyMatch (pub ++ "/" ++ ns ++ "/" ++ ds) ver)
            with _ | row
          · rw [hfind] at h2
            simp only at h2
            exact absurd h2 (by simp)
          · rw [hfind] at h2
            simp only at h2
            by_cases hown : row.ownerId ≠ user.id
            · rw [if_pos hown] at h2
              exact absurd h2 (by simp)
            · rw [if_neg hown] at h2
              have hs2 : deletePackage s (pub ++ "/" ++ ns ++ "/" ++ ds) ver = s2 := by
                simpa using h2
              rw [← hs2]
              exact StoreInv_delete s _ _ h

  | backfill =>
      show StoreInv (backfillFts s)
      rw [backfill_id s h]
      exact h

theorem StoreInv_runOps (avail : Bool) (ops : List Op) : StoreInv (runOps avail ops) := by
  suffices hgen : ∀ (l : List Op) (s : Store), StoreInv s → StoreInv (l.foldl applyOp s) by
    exact hgen ops (initStore avail) (StoreInv_init avail)
  intro l
  induction l with
  | nil => intro s hs; exact hs
  | cons op rest ih =>
      intro s hs
      exact ih (applyOp s op) (StoreInv_applyOp s op hs)

theorem unpublish_ok_shape {s : Store} {pub ns ds ver : String} {user : UserRow}
    {s2 : Store} (h : unpublish s pub ns ds ver user = .ok s2) :
    s2 = deletePackage s (pub ++ "/" ++ ns ++ "/" ++ ds) ver := by
  have h2 : (match s.packages.find? (pkgKeyMatch (pub ++ "/" ++ ns ++ "/" ++ ds) ver) with
      | none => Except.error ApiError.notFound
      | some row =>
          if row.ownerId ≠ user.id then Except.error ApiError.forbidden
          else Except.ok (deletePackage s (pub ++ "/" ++ ns ++ "/" ++ ds) ver)) =
      Except.ok s2 := h
  rcases hfind : s.packages.find? (pkgKeyMatch (pub ++ "/" ++ ns ++ "/" ++ ds) ver)
    with _ | row
  · rw [hfind] at h2
    simp only at h2
    exact absurd h2 (by simp)
  · rw [hfind] at h2
    simp only at h2
    by_cases hown : row.ownerId ≠ user.id
    · rw [if_pos hown] at h2
      exact absurd h2 (by simp)
    · rw [if_neg hown] at h2
      have := Except.ok.inj h2
      exact this.symm

theorem applyOp_ftsAvailable (s : Store) (op : Op) :
    (applyOp s op).ftsAvailable = s.ftsAvailable := by
  cases op with
  | register username pwHash =>
      show (registerUser s username pwHash).ftsAvailable = _
      unfold registerUser
      rcases hfind : s.users.find? (fun u => (u.username = username : Bool)) with _ | u <;>
        rw [hfind]
  | issueToken username pw tokenVal now =>
      show (issueToken s username pw tokenVal now).ftsAvailable = _
      unfold issueToken
      rcases hfind : s.users.find? (fun u => (u.username = username : Bool)) with _ | u
      · rw [hfind]
      · rw [hfind]
        simp only
        split <;> rfl
  | publish cred now body force =>
      show (match get_current_user s now cred with
        | .error _ => s
        | .ok user => match publish s now body force user with
          | .error _ => s
          | .ok s2 => s2).ftsAvailable = _
      rcases hauth : get_current_user s now cred with _ | user
      · rfl
      · simp only
        rcases hpub : publish s now body force user with _ | s2
        · rfl
        · simp only
          rw [publish_ok_shape s now body force user s2 hpub]
          rfl
  | unpublish cred now pub ns ds ver =>
      show (match get_current_user s now cred with
        | .error _ => s
        | .ok user => match unpublish s pub ns ds ver user with
          | .error _ => s
          | .ok s2 => s2).ftsAvailable = _
      rcases hauth : get_current_user s now cred with _ | user
      · rfl
      · simp only
        rcases hunp : unpublish s pub ns ds ver user with _ | s2
        · rfl
        · simp only
          rw [unpublish_ok_shape hunp]
          rfl
  | backfill =>
      show (backfillFts s).ftsAvailable = _
      unfold backfillFts
      split <;> rfl

theorem runOps_ftsAvailable (avail : Bool) (ops : List Op) :
    (runOps avail ops).ftsAvailable = avail := by
  suffices hgen : ∀ (l : List Op) (s : Store), (l.foldl applyOp s).ftsAvailable = s.ftsAvailable by
    exact hgen ops (initStore avail)
  intro l
  induction l with
  | nil => intro s; rfl
  | cons op rest ih =>
      intro s
      rw [List.foldl_cons, ih (applyOp s op), applyOp_ftsAvailable]

/-! ## C2 — search index consistency -/

/-- C2: after any sequence of registry operations from a fresh database
with the FTS5 engine available, the index holds exactly the documents of
the currently stored package rows — one document per row, in the row
order, keyed by the unique row ids — so no stale document survives a
delete or overwrite and no stored row lacks a document; and re-running
the startup backfill leaves the store unchanged (it is idempotent). -/
theorem c2_index_sync (ops : List Op) :
    (runOps true ops).fts = (runOps true ops).packages.map toDoc ∧
    ((runOps true ops).packages.map PkgRow.id).Nodup ∧
    applyOp (runOps true ops) .backfill = runOps true ops := by
  have h := StoreInv_runOps true ops
  exact ⟨h.sync (runOps_ftsAvailable true ops), h.pkgNodup,
    backfill_id (runOps true ops) h⟩

/-! ## C9 — ownership invariant -/

/-- C9: in every state reachable by registry operations from a fresh
database, all package rows sharing one identifier have the same owner,
and that owner is the unique stored user whose username equals the
identifier's publisher segment; moreover publish rejects with Forbidden
whenever the publisher segment differs from the authenticated caller's
username, so the first publisher of an identifier is the only identity
that can publish further versions under it. -/
theorem c9_ownership (avail : Bool) (ops : List Op) :
    (∀ p1 ∈ (runOps avail ops).packages, ∀ p2 ∈ (runOps avail ops).packages,
        p1.packageId = p2.packageId → p1.ownerId = p2.ownerId) ∧
    (∀ p ∈ (runOps avail ops).packages,
        ∃! u : UserRow, u ∈ (runOps avail ops).users ∧
          u.username = publisherSegment p.packageId ∧ u.id = p.ownerId) ∧
    (∀ (s : Store) (now : Nat) (body : PackageIn) (force : Bool) (user : UserRow),
        publisherSegment body.id ≠ user.username →
        publish s now body force user = .error .forbidden) := by
  have h := StoreInv_runOps avail ops
  refine ⟨?_, ?_, ?_⟩
  · intro p1 h1 p2 h2 heq
    rcases h.owners p1 h1 with ⟨u1, hu1, hid1, hn1⟩
    rcases h.owners p2 h2 with ⟨u2, hu2, hid2, hn2⟩
    have huu : u1 = u2 :=
      List.inj_on_of_nodup_map h.unames hu1 hu2 (by rw [hn1, hn2, heq])
    rw [← hid1, ← hid2, huu]
  · intro p hp
    rcases h.owners p hp with ⟨u, hu, hid, hn⟩
    refine ⟨u, ⟨hu, hn, hid⟩, ?_⟩
    rintro v ⟨hv, hvn, _⟩
    exact List.inj_on_of_nodup_map h.unames hv hu (hvn.trans hn.symm)
  · intro s2 now body force user hne
    unfold publish
    rw [if_pos hne]

/-- C9 witness: a mismatched publisher segment is rejected with Forbidden
in the concrete store. -/
theorem c9_ownership_witness :
    publish storeOne 7 wxPkg false bobU = .error .forbidden :=
  (c9_ownership true []).2.2 storeOne 7 wxPkg false bobU (by decide)

/-! ## C7 — suggestion ranking -/

theorem ratioFrac_den_pos (a b : List Char) : 0 < (ratioFrac a b).2 := by
  unfold ratioFrac calcRatioFrac
  split
  · omega
  · simp only
    omega

theorem fracLt_iff_q {a b : Nat × Nat} (ha : 0 < a.2) (hb : 0 < b.2) :
    (fracLt a b = true) ↔ ((a.1 : ℚ) / a.2 < (b.1 : ℚ) / b.2) := by
  rw [div_lt_div_iff₀ (by exact_mod_cast ha) (by exact_mod_cast hb)]
  unfold fracLt
  rw [decide_eq_true_eq]
  constructor
  · intro h
    exact_mod_cast h
  · intro h
    exact_mod_cast h

theorem fracEq_iff_q {a b : Nat × Nat} (ha : 0 < a.2) (hb : 0 < b.2) :
    (fracEq a b = true) ↔ ((a.1 : ℚ) / a.2 = (b.1 : ℚ) / b.2) := by
  rw [div_eq_div_iff (by exact_mod_cast Nat.pos_iff_ne_zero.mp ha)
    (by exact_mod_cast Nat.pos_iff_ne_zero.mp hb)]
  unfold fracEq
  rw [decide_eq_true_eq]
  constructor
  · intro h
    exact_mod_cast h
  · intro h
    exact_mod_cast h

theorem suggLe_total_mem : ∀ p q : (Nat × Nat) × String, suggLe p q ∨ suggLe q p := by
  intro p q
  unfold suggLe fracLt fracEq
  rcases Nat.lt_trichotomy (p.1.1 * q.1.2) (q.1.1 * p.1.2) with h | h | h
  · right
    left
    simp [h]
  · rcases hstr : pyStrLt p.2.data q.2.data with _ | _
    · left
      right
      simp [h, hstr]
    · right
      right
      refine ⟨by simp [h], ?_⟩
      exact pyStrLt_asymm hstr
  · left
    left
    simp [h]

theorem suggLe_trans_mem (p q r : (Nat × Nat) × String)
    (hp : 0 < p.1.2) (hq : 0 < q.1.2) (hr : 0 < r.1.2)
    (h1 : suggLe p q) (h2 : suggLe q r) : suggLe p r := by
  unfold suggLe at h1 h2 ⊢
  rcases h1 with h1 | ⟨h1e, h1s⟩
  · rcases h2 with h2 | ⟨h2e, _⟩
    · left
      rw [fracLt_iff_q hq hp] at h1
      rw [fracLt_iff_q hr hq] at h2
      rw [fracLt_iff_q hr hp]
      exact lt_trans h2 h1
    · left
      rw [fracLt_iff_q hq hp] at h1
      rw [fracEq_iff_q hq hr] at h2e
      rw [fracLt_iff_q hr hp]
      rw [← h2e]
      exact h1
  · rcases h2 with h2 | ⟨h2e, h2s⟩
    · left
      rw [fracEq_iff_q hp hq] at h1e
      rw [fracLt_iff_q hr hq] at h2
      rw [fracLt_iff_q hr hp]
      rw [h1e]
      exact h2
    · right
      refine ⟨?_, ?_⟩
      · rw [fracEq_iff_q hp hq] at h1e
        rw [fracEq_iff_q hq hr] at h2e
        rw [fracEq_iff_q hp hr]
        exact h1e.trans h2e
      · rcases hac : pyStrLt p.2.data r.2.data with _ | _
        · rfl
        · exfalso
          rcases pyStrLt_total p.2.data q.2.data with hpq | hpq | hpq
          · rw [h1s] at hpq
            exact Bool.false_ne_true hpq
          · have := pyStrLt_trans hpq hac
            rw [h2s] at this
            exact Bool.false_ne_true this
          · rw [hpq] at hac
            rw [h2s] at hac
            exact Bool.false_ne_true hac

/-- A payload for identifier `a/b/c`. -/
def abcPkg : PackageIn :=
  ⟨"a/b/c", "1", "C", none, none, ⟨"A", none⟩, [], [⟨"u", "csv", none, none⟩]⟩

/-- A payload for identifier `a/b/d`. -/
def abdPkg : PackageIn :=
  ⟨"a/b/d", "1", "D", none, none, ⟨"A", none⟩, [], [⟨"u", "csv", none, none⟩]⟩

/-- A store with two published identifiers `a/b/c` and `a/b/d`. -/
def twoIdStore : Store :=
  { users := [aliceU]
    tokens := []
    packages := [⟨1, "a/b/c", "1", 1, abcPkg, 1⟩, ⟨2, "a/b/d", "1", 1, abdPkg, 2⟩]
    ftsAvailable := true
    fts := [toDoc ⟨1, "a/b/c", "1", 1, abcPkg, 1⟩, toDoc ⟨2, "a/b/d", "1", 1, abdPkg, 2⟩]
    nextUserId := 2
    nextTokenId := 1
    nextPkgId := 3 }

/-- C7 counterexample: for the query `a/b/x` the two live identifiers
`a/b/c` and `a/b/d` have exactly equal similarity scores, yet suggest
returns them in descending lexical order `["a/b/d", "a/b/c"]` — the
`heapq.nlargest` tuple comparison breaks score ties by the larger string
first — refuting the claimed ascending lexical tie-break. -/
theorem c7_suggest_counterexample :
    suggest_packages twoIdStore "a/b/x" 5 = ⟨"a/b/x", ["a/b/d", "a/b/c"]⟩ ∧
    fracEq (ratioFrac "a/b/c".data "a/b/x".data)
      (ratioFrac "a/b/d".data "a/b/x".data) = true ∧
    pyStrLt "a/b/c".data "a/b/d".data = true ∧
    (suggest_packages twoIdStore "a/b/x" 5).suggestions ≠ ["a/b/c", "a/b/d"] := by
  exact ⟨by decide, by decide, by decide, by decide⟩

/-- C7 (amended): suggest echoes the query; every suggestion is a
currently-published identifier whose similarity score against the query
reaches the 0.4 cutoff; at most `maxResults` suggestions are returned,
ordered by similarity descending with score ties broken by descending
(reverse) lexical order of the identifier; and an empty registry yields
an empty suggestion list, not an error. -/
theorem c7_suggest_amended (s : Store) (q : String) (n : Nat) :
    (suggest_packages s q n).query = q ∧
    (∀ x ∈ (suggest_packages s q n).suggestions,
      x ∈ s.packages.map PkgRow.packageId ∧
        fracGe (ratioFrac x.data q.data) (2, 5) = true) ∧
    (suggest_packages s q n).suggestions.length ≤ n ∧
    (suggest_packages s q n).suggestions.Pairwise (fun x y =>
      fracLt (ratioFrac y.data q.data) (ratioFrac x.data q.data) = true ∨
      (fracEq (ratioFrac x.data q.data) (ratioFrac y.data q.data) = true ∧
        pyStrLt x.data y.data = false)) ∧
    (s.packages = [] → (suggest_packages s q n).suggestions = []) := by
  have hresult : ∀ pr ∈ ((distinctIds s).filter (fun x =>
      fracGe (realQuickRatioFrac x.data q.data) (2, 5) &&
        fracGe (quickRatioFrac x.data q.data) (2, 5) &&
        fracGe (ratioFrac x.data q.data) (2, 5))).map
      (fun x => (ratioFrac x.data q.data, x)),
      pr.1 = ratioFrac pr.2.data q.data ∧ pr.2 ∈ distinctIds s ∧
        fracGe (ratioFrac pr.2.data q.data) (2, 5) = true := by
    intro pr hpr
    rcases List.mem_map.mp hpr with ⟨x, hx, rfl⟩
    rcases List.mem_filter.mp hx with ⟨hxmem, hxpred⟩
    simp only [Bool.and_eq_true] at hxpred
    exact ⟨rfl, hxmem, hxpred.2⟩
  refine ⟨rfl, ?_, ?_, ?_, ?_⟩
  · intro x hx
    rcases List.mem_map.mp hx with ⟨pr, hpr, rfl⟩
    have hpr2 := List.mem_of_mem_take hpr
    have hpr3 := (List.mem_insertionSort suggLe).mp hpr2
    rcases hresult pr hpr3 with ⟨_, hmem, hge⟩
    refine ⟨?_, hge⟩
    exact List.mem_dedup.mp hmem
  · show (List.map _ (List.take n _)).length ≤ n
    rw [List.length_map, List.length_take]
    exact min_le_left n _
  · have hsorted := sorted_insertionSort_mem suggLe (((distinctIds s).filter (fun x =>
        fracGe (realQuickRatioFrac x.data q.data) (2, 5) &&
          fracGe (quickRatioFrac x.data q.data) (2, 5) &&
          fracGe (ratioFrac x.data q.data) (2, 5))).map
        (fun x => (ratioFrac x.data q.data, x)))
      (fun x _ y _ => suggLe_total_mem x y)
      (fun x hx y hy z hz hxy hyz => by
        refine suggLe_trans_mem x y z ?_ ?_ ?_ hxy hyz
        · rw [(hresult x hx).1]
          exact ratioFrac_den_pos _ _
        · rw [(hresult y hy).1]
          exact ratioFrac_den_pos _ _
        · rw [(hresult z hz).1]
          exact ratioFrac_den_pos _ _)
    have htake := hsorted.sublist (List.take_sublist n _)
    rw [show (suggest_packages s q n).suggestions =
        (List.take n (List.insertionSort suggLe
          (((distinctIds s).filter (fun x =>
            fracGe (realQuickRatioFrac x.data q.data) (2, 5) &&
              fracGe (quickRatioFrac x.data q.data) (2, 5) &&
              fracGe (ratioFrac x.data q.data) (2, 5))).map
            (fun x => (ratioFrac x.data q.data, x))))).map (fun pr => pr.2) from rfl]
    rw [List.pairwise_map]
    refine htake.imp_of_mem ?_
    intro a b ha hb hab
    have ha2 := hresult a ((List.mem_insertionSort suggLe).mp (List.mem_of_mem_take ha))
    have hb2 := hresult b ((List.mem_insertionSort suggLe).mp (List.mem_of_mem_take hb))
    unfold suggLe at hab
    rw [ha2.1, hb2.1] at hab
    exact hab
  · intro h
    show (List.map _ (List.take n (List.insertionSort suggLe
      ((List.filter _ (distinctIds s)).map _)))) = []
    have : distinctIds s = [] := by
      unfold distinctIds
      rw [h]
      rfl
    rw [this]
    simp

/-! ## C5 — token and serialization lemmas -/

theorem splitRunsAux_mem (p : Char → Bool) :
    ∀ (l acc tok : List Char), tok ∈ splitRunsAux p acc l →
      (∀ c ∈ acc, p c = true) →
      tok ≠ [] ∧ (∀ c ∈ tok, p c = true) ∧ tok <:+: (acc.reverse ++ l) := by
  intro l
  induction l with
  | nil =>
      intro acc tok hmem hacc
      by_cases h : acc = []
      · subst h
        simp [splitRunsAux] at hmem
      · rw [splitRunsAux, if_neg h] at hmem
        rcases List.mem_singleton.mp hmem with rfl
        refine ⟨by simpa using h, ?_, by simp⟩
        intro c hc
        exact hacc c (by simpa using hc)
  | cons c rest ih =>
      intro acc tok hmem hacc
      rw [splitRunsAux] at hmem
      by_cases hp : p c = true
      · rw [if_pos hp] at hmem
        have hres := ih (c :: acc) tok hmem (by
          intro d hd
          rcases List.mem_cons.mp hd with rfl | hd2
          · exact hp
          · exact hacc d hd2)
        refine ⟨hres.1, hres.2.1, ?_⟩
        have heq : (c :: acc).reverse ++ rest = acc.reverse ++ (c :: rest) := by simp
        rw [heq] at hres
        exact hres.2.2
      · rw [if_neg hp] at hmem
        by_cases hacc0 : acc = []
        · rw [if_pos hacc0] at hmem
          have hres := ih [] tok hmem (by simp)
          refine ⟨hres.1, hres.2.1, ?_⟩
          exact infix_append_left3 (infix_cons3 (by simpa using hres.2.2) c) _
        · rw [if_neg hacc0] at hmem
          rcases List.mem_cons.mp hmem with rfl | hmem2
          · refine ⟨by simpa using hacc0, ?_, ?_⟩
            · intro d hd
              exact hacc d (by simpa using hd)
            · exact infix_append_right3 List.infix_rfl _
          · have hres := ih [] tok hmem2 (by simp)
            refine ⟨hres.1, hres.2.1, ?_⟩
            exact infix_append_left3 (infix_cons3 (by simpa using hres.2.2) c) _

theorem splitRunsAux_all (p : Char → Bool) :
    ∀ (l acc : List Char), (∀ c ∈ l, p c = true) → (acc ≠ [] ∨ l ≠ []) →
      splitRunsAux p acc l = [acc.reverse ++ l] := by
  intro l
  induction l with
  | nil =>
      intro acc _ hne
      rcases hne with h | h
      · rw [splitRunsAux, if_neg h]
        simp
      · simp at h
  | cons c rest ih =>
      intro acc hall hne
      rw [splitRunsAux, if_pos (hall c (by simp))]
      rw [ih (c :: acc) (fun d hd => hall d (by simp [hd])) (Or.inl (by simp))]
      simp

theorem ftsTokens_mem {str : String} {tok : String} (h : tok ∈ ftsTokens str) :
    tok.data ≠ [] ∧ (∀ c ∈ tok.data, c.isAlphanum = true) ∧
      tok.data <:+: lowerChars str.data := by
  unfold ftsTokens splitRuns at h
  rcases List.mem_map.mp h with ⟨run, hrun, rfl⟩
  have := splitRunsAux_mem Char.isAlphanum (lowerChars str.data) [] run hrun (by simp)
  exact ⟨this.1, this.2.1, by simpa using this.2.2⟩

theorem ftsTokens_all_alnum (q : String) (hne : q.data ≠ [])
    (hal : ∀ c ∈ q.data, c.isAlphanum = true) : ftsTokens q = [lowerStr q] := by
  unfold ftsTokens splitRuns
  rw [splitRunsAux_all Char.isAlphanum (lowerChars q.data) []
    (by
      intro c hc
      rcases List.mem_map.mp hc with ⟨d, hd, rfl⟩
      exact isAlphanum_toLower d (hal d hd))
    (Or.inr (by simpa [lowerChars] using hne))]
  rfl

theorem alnum_not_ws (c : Char) (h : c.isAlphanum = true) : c.isWhitespace = false := by
  have hb := (alnum_iff c).mp h
  have h1 : c ≠ ' ' := by intro he; subst he; revert hb; decide
  have h2 : c ≠ '\t' := by intro he; subst he; revert hb; decide
  have h3 : c ≠ '\r' := by intro he; subst he; revert hb; decide
  have h4 : c ≠ '\n' := by intro he; subst he; revert hb; decide
  simp [Char.isWhitespace, h1, h2, h3, h4]

theorem ftsQueryTerms_alnum (q : String) (hne : q.data ≠ [])
    (hal : ∀ c ∈ q.data, c.isAlphanum = true) : ftsQueryTerms q = [q] := by
  unfold ftsQueryTerms splitRuns
  have hmap : q.data.map (fun c =>
      if c.isAlphanum || c = '_' || c.isWhitespace then c else ' ') = q.data := by
    rw [show q.data = q.data.map id by simp]
    rw [List.map_map]
    apply List.map_congr_left
    intro c hc
    simp [hal c (by simpa using hc)]
  rw [hmap]
  rw [splitRunsAux_all _ q.data []
    (by
      intro c hc
      simp [alnum_not_ws c (hal c hc)])
    (Or.inr hne)]
  rfl

theorem phraseMatch_of_mem {p tok : String} {toks : List String} (hmem : tok ∈ toks)
    (hpre : p.data.isPrefixOf tok.data = true) :
    phraseMatch [p] toks = true := by
  induction toks with
  | nil => cases hmem
  | cons t rest ih =>
      rw [phraseMatch]
      rcases List.mem_cons.mp hmem with rfl | hmem2
      · have : phrasePreAt [p] (tok :: rest) = true := by
          simpa [phrasePreAt] using hpre
        simp [this]
      · simp [ih hmem2]

theorem phraseMatch_singleton_exists {p : String} {toks : List String}
    (h : phraseMatch [p] toks = true) :
    ∃ tok ∈ toks, p.data.isPrefixOf tok.data = true := by
  induction toks with
  | nil => simp [phraseMatch] at h
  | cons t rest ih =>
      rw [phraseMatch] at h
      simp only [Bool.or_eq_true, Bool.and_eq_true] at h
      rcases h with ⟨_, h1⟩ | h2
      · exact ⟨t, by simp, by simpa [phrasePreAt] using h1⟩
      · rcases ih h2 with ⟨tok, htok, hpre⟩
        exact ⟨tok, by simp [htok], hpre⟩

theorem isAlphanum_of_toLower (c : Char) (h : c.toLower.isAlphanum = true) :
    c.isAlphanum = true := by
  rw [alnum_iff] at h ⊢
  have h1 := toLower_toNat c
  by_cases hc : 65 ≤ c.toNat ∧ c.toNat ≤ 90 <;> simp [hc] at h1 <;> omega

theorem map_toLower_infix_decomp {target l : List Char}
    (h : target <:+: lowerChars l) :
    ∃ u w v, l = u ++ w ++ v ∧ lowerChars w = target := by
  rcases h with ⟨st, tt, hst⟩
  have h1 : List.map Char.toLower l = st ++ (target ++ tt) := by
    rw [show List.map Char.toLower l = lowerChars l from rfl, ← hst]
    simp
  rcases List.map_eq_append_iff.mp h1 with ⟨u, rest, hl, hu, hrest⟩
  rcases List.map_eq_append_iff.mp hrest with ⟨w, v, hrest2, hw, hv⟩
  exact ⟨u, w, v, by rw [hl, hrest2, List.append_assoc], hw⟩

theorem infix_lower_escape {target l : List Char}
    (h : target <:+: lowerChars l) (hal : ∀ c ∈ target, c.isAlphanum = true) :
    target <:+: lowerChars (jsonEscape l) := by
  rcases map_toLower_infix_decomp h with ⟨u, w, v, rfl, hw⟩
  have hwal : ∀ c ∈ w, c.isAlphanum = true := by
    intro c hc
    apply isAlphanum_of_toLower
    apply hal
    rw [← hw]
    exact List.mem_map_of_mem Char.toLower hc
  have hesc : jsonEscape (u ++ w ++ v) =
      jsonEscape u ++ w ++ jsonEscape v := by
    rw [jsonEscape_append, jsonEscape_append]
    rw [jsonEscape_escFree w (fun c hc => escFree_of_alnum c (hwal c hc))]
  rw [hesc]
  unfold lowerChars
  rw [List.map_append, List.map_append]
  rw [show List.map Char.toLower w = target from hw]
  exact infix_append_right3 (infix_append_left3 (List.infix_rfl) _) _

theorem dumpPackage_id_within (b : PackageIn) :
    (jsonStr b.id).data <:+: (dumpPackage b).data := by
  unfold dumpPackage
  simp only [String.data_append, List.append_assoc]
  repeat
    first
    | exact infix_append_right3 List.infix_rfl _
    | apply infix_append_left3
    | apply infix_cons3

theorem dumpPackage_desc_within (b : PackageIn) (d : String)
    (hd : b.description = some d) :
    (jsonStr d).data <:+: (dumpPackage b).data := by
  unfold dumpPackage
  rw [hd]
  simp only [jsonOptStr]
  simp only [String.data_append, List.append_assoc]
  repeat
    first
    | exact infix_append_right3 List.infix_rfl _
    | apply infix_append_left3
    | apply infix_cons3

theorem dumpPackage_pub_within (b : PackageIn) :
    (jsonStr b.publisher.name).data <:+: (dumpPackage b).data := by
  unfold dumpPackage dumpPublisher
  simp only [String.data_append, List.append_assoc]
  repeat
    first
    | exact infix_append_right3 List.infix_rfl _
    | apply infix_append_left3
    | apply infix_cons3

theorem alnum_ne_wild (c : Char) (h : c.isAlphanum = true) : c ≠ '%' ∧ c ≠ '_' := by
  have hb := (alnum_iff c).mp h
  constructor
  · intro he; subst he; revert hb; decide
  · intro he; subst he; revert hb; decide

set_option maxHeartbeats 1000000 in
theorem lower_infix_of_jsonStr {target : List Char} {s : String} {b : PackageIn}
    (hjs : (jsonStr s).data <:+: (dumpPackage b).data)
    (h : target <:+: lowerChars s.data)
    (hal : ∀ c ∈ target, c.isAlphanum = true) :
    target <:+: (lowerStr (dumpPackage b)).data := by
  have h1 : target <:+: lowerChars (jsonEscape s.data) := infix_lower_escape h hal
  have h2 : lowerChars (jsonEscape s.data) <:+: lowerChars (jsonStr s).data := by
    show lowerChars (jsonEscape s.data) <:+:
      lowerChars ('"' :: (jsonEscape s.data ++ ['"']))
    unfold lowerChars
    rw [List.map_cons, List.map_append]
    exact infix_cons3 (infix_append_right3 List.infix_rfl _) _
  have h3 : lowerChars (jsonStr s).data <:+: lowerChars (dumpPackage b).data :=
    hjs.map Char.toLower
  show target <:+: lowerChars (dumpPackage b).data
  exact (h1.trans h2).trans h3

set_option maxHeartbeats 2000000 in
theorem doc_field_infix (p : PkgRow) (hpid : p.packageId = p.data.id)
    {target : List Char} (hal : ∀ c ∈ target, c.isAlphanum = true)
    {field : String}
    (hfield : field ∈ [(toDoc p).package_id, (toDoc p).title,
      (toDoc p).description, (toDoc p).tags, (toDoc p).publisherName])
    (h : target <:+: lowerChars field.data) :
    target <:+: (lowerStr (dumpPackage p.data)).data := by
  simp only [List.mem_cons, List.not_mem_nil, or_false] at hfield
  rcases hfield with rfl | rfl | rfl | rfl | rfl
  · simp only [toDoc] at h
    rw [hpid] at h
    exact lower_infix_of_jsonStr (dumpPackage_id_within p.data) h hal
  · simp only [toDoc] at h
    exact lower_infix_of_jsonStr (dumpPackage_title_within p.data) h hal
  · simp only [toDoc] at h
    rcases hdesc : p.data.description with _ | d
    · rw [hdesc] at h
      have hnil : target = [] := by simpa [lowerChars] using h
      subst hnil
      exact List.nil_infix
    · rw [hdesc] at h
      simp only [Option.getD] at h
      exact lower_infix_of_jsonStr (dumpPackage_desc_within p.data d hdesc) h hal
  · simp only [toDoc] at h
    show target <:+: lowerChars (dumpPackage p.data).data
    have h2 : lowerChars (dumpStrList p.data.tags).data <:+:
        lowerChars (dumpPackage p.data).data :=
      (dumpPackage_tags_within p.data).map Char.toLower
    exact h.trans h2
  · simp only [toDoc] at h
    exact lower_infix_of_jsonStr (dumpPackage_pub_within p.data) h hal

theorem ftsCond_eq_docMatch (s : Store) (terms : List String) (p : PkgRow)
    (hmem : p ∈ s.packages) (hsync : s.fts = s.packages.map toDoc)
    (hnodup : (s.packages.map PkgRow.id).Nodup) :
    ftsCond s terms p = docMatchExpr (toDoc p) terms := by
  unfold ftsCond
  cases hb : docMatchExpr (toDoc p) terms
  · rw [List.any_eq_false]
    intro d hd
    rw [hsync] at hd
    rcases List.mem_map.mp hd with ⟨p2, hp2, rfl⟩
    by_cases hid : p2.id = p.id
    · have : p2 = p := List.inj_on_of_nodup_map hnodup hp2 hmem hid
      subst this
      simp [hb]
    · simp [toDoc, hid]
  · rw [List.any_eq_true]
    refine ⟨toDoc p, ?_, ?_⟩
    · rw [hsync]
      exact List.mem_map_of_mem toDoc hmem
    · have hr : (toDoc p).rowid = p.id := rfl
      simp [hr, hb]

theorem isPrefixOf_true_iff {l1 l2 : List Char} :
    l1.isPrefixOf l2 = true ↔ l1 <+: l2 :=
  List.isPrefixOf_iff_prefix

theorem list_packages_fallback_sorted (s : Store) (rank : Nat → Int)
    (q tag : Option String) (limit offset : Nat)
    (hna : s.ftsAvailable = false) :
    (list_packages s rank q tag limit offset).items.Pairwise
      (fun a b => b.published_at ≤ a.published_at) := by
  unfold list_packages
  simp only [hna, Bool.and_false, Bool.false_eq_true, if_false, mkPackageList_items]
  rw [List.pairwise_map]
  apply List.Pairwise.sublist ((List.take_sublist _ _).trans (List.drop_sublist _ _))
  exact (sorted_insertionSort_mem pubDescLe _ (fun a _ b _ => pubDescLe_total a b)
    (fun a _ b _ c _ => pubDescLe_trans a b c)).imp (fun hab => hab)

/-- `storeOne` with the FTS5 engine unavailable: every text query runs the
`LIKE` fallback instead of the `MATCH` expression. -/
def ftsOffStore : Store :=
  { storeOne with ftsAvailable := false, fts := [] }

set_option maxHeartbeats 1600000 in
/-- C5 counterexample: the query `ample` is a case-insensitive substring of
the stored title `Sample Data`, so with the index unavailable the fallback
`LIKE` search returns the record (total 1); with the index available the
`MATCH` expression `"ample"*` requires a whole token starting with `ample`,
which no token of the document provides, so the indexed search returns
nothing (total 0). The two modes disagree on a simple single-token
case-insensitive query that is a substring of the title, refuting the
claimed equivalence of filtering decisions. -/
theorem c5_fallback_counterexample :
    ((lowerStr "ample").data <:+: (lowerStr wxPkg.title).data) ∧
    (list_packages ftsOffStore (fun _ => 0) (some "ample") none 50 0).total = 1 ∧
    (list_packages storeOne (fun _ => 0) (some "ample") none 50 0).total = 0 :=
  ⟨⟨"s".data, " data".data, by decide⟩, by decide, by decide⟩

set_option maxHeartbeats 1600000 in
/-- C5 (amended): with the index unavailable, a non-empty alphanumeric text
query matches a record iff the lowercased serialized payload contains the
lowercased query as a substring, and fallback results are ordered by
publication timestamp descending. The two modes agree only in a restricted
direction: when the query is a prefix of some whole token of the title both
modes match, and when the query is not even a substring of the serialized
payload both modes reject; a mid-token substring (see the counterexample)
matches only the fallback. On a synced index with distinct row ids the
indexed condition coincides with the pure document-match predicate. -/
theorem c5_fallback_amended (s : Store) (rank : Nat → Int) (q : String)
    (p : PkgRow) (limit offset : Nat)
    (hq : q.data ≠ []) (hal : ∀ c ∈ q.data, c.isAlphanum = true)
    (hpid : p.packageId = p.data.id) :
    (textCondLike q p = true ↔
        (lowerStr q).data <:+: (lowerStr (dumpPackage p.data)).data) ∧
    (s.ftsAvailable = false →
      (list_packages s rank (some q) none limit offset).items.Pairwise
        (fun a b => b.published_at ≤ a.published_at)) ∧
    ((∃ tok ∈ ftsTokens p.data.title, (lowerStr q).data.isPrefixOf tok.data = true) →
      textCondLike q p = true ∧ docMatchExpr (toDoc p) (ftsQueryTerms q) = true) ∧
    (¬ (lowerStr q).data <:+: (lowerStr (dumpPackage p.data)).data →
      textCondLike q p = false ∧ docMatchExpr (toDoc p) (ftsQueryTerms q) = false) ∧
    (p ∈ s.packages → s.fts = s.packages.map toDoc →
      (s.packages.map PkgRow.id).Nodup →
      ftsCond s (ftsQueryTerms q) p = docMatchExpr (toDoc p) (ftsQueryTerms q)) := by
  have halq : ∀ c ∈ (lowerStr q).data, c.isAlphanum = true := by
    intro c hc
    rcases List.mem_map.mp hc with ⟨d, hd, rfl⟩
    exact isAlphanum_toLower d (hal d hd)
  have hiff : textCondLike q p = true ↔
      (lowerStr q).data <:+: (lowerStr (dumpPackage p.data)).data := by
    show likeMatch ("%" ++ lowerStr q ++ "%").data
        (lowerStr (dumpPackage p.data)).data = true ↔ _
    have hpat : ("%" ++ lowerStr q ++ "%").data =
        '%' :: ((lowerStr q).data ++ ['%']) := by
      simp [String.data_append]
    rw [hpat]
    refine likeMatch_contains_iff _ _ ?_ ?_ ?_
    · intro c hc
      exact alnum_ne_wild c (halq c hc)
    · intro c hc
      exact mem_lowerChars_lower hc
    · intro c hc
      exact mem_lowerChars_lower hc
  have hdocterm : ∀ {field : String},
      field ∈ [(toDoc p).package_id, (toDoc p).title, (toDoc p).description,
        (toDoc p).tags, (toDoc p).publisherName] →
      phraseMatch (ftsTokens q) (ftsTokens field) = true →
      (lowerStr q).data <:+: (lowerStr (dumpPackage p.data)).data := by
    intro field hfield hpm
    rw [ftsTokens_all_alnum q hq hal] at hpm
    rcases phraseMatch_singleton_exists hpm with ⟨tok, htok, hpre⟩
    rcases ftsTokens_mem htok with ⟨hne2, htokal, htokinf⟩
    have hq1 : (lowerStr q).data <:+: lowerChars field.data :=
      (isPrefixOf_true_iff.mp hpre).isInfix.trans htokinf
    exact doc_field_infix p hpid halq hfield hq1
  refine ⟨hiff, ?_, ?_, ?_, ?_⟩
  · intro hna
    exact list_packages_fallback_sorted s rank (some q) none limit offset hna
  · rintro ⟨tok, htok, hpre⟩
    have htitle : (lowerStr q).data <:+: lowerChars p.data.title.data := by
      rcases ftsTokens_mem htok with ⟨hne2, htokal, htokinf⟩
      exact (isPrefixOf_true_iff.mp hpre).isInfix.trans htokinf
    constructor
    · rw [hiff]
      exact lower_infix_of_jsonStr (dumpPackage_title_within p.data) htitle halq
    · rw [ftsQueryTerms_alnum q hq hal]
      show docMatchExpr (toDoc p) [q] = true
      simp only [docMatchExpr, List.any_cons, List.any_nil, Bool.or_false]
      unfold docMatchTerm
      apply List.any_eq_true.mpr
      refine ⟨(toDoc p).title, by simp, ?_⟩
      rw [ftsTokens_all_alnum q hq hal]
      exact phraseMatch_of_mem htok hpre
  · intro hni
    constructor
    · cases hb : textCondLike q p
      · rfl
      · exact absurd (hiff.mp hb) hni
    · cases hb : docMatchExpr (toDoc p) (ftsQueryTerms q)
      · rfl
      · exfalso
        rw [ftsQueryTerms_alnum q hq hal] at hb
        simp only [docMatchExpr, List.any_cons, List.any_nil, Bool.or_false] at hb
        rw [show docMatchTerm (toDoc p) q = [(toDoc p).package_id, (toDoc p).title,
            (toDoc p).description, (toDoc p).tags, (toDoc p).publisherName].any
            (fun field => phraseMatch (ftsTokens q) (ftsTokens field)) from rfl] at hb
        rcases List.any_eq_true.mp hb with ⟨field, hfield, hpm⟩
        exact hni (hdocterm hfield hpm)
  · intro hmem hsync hnodup
    exact ftsCond_eq_docMatch s (ftsQueryTerms q) p hmem hsync hnodup

set_option maxHeartbeats 1600000 in
/-- C5 witness: the single-token query `sample` is a whole token of the
stored title `Sample Data`, so both the fallback condition and the indexed
document match accept Alice's package. -/
theorem c5_fallback_amended_witness :
    textCondLike "sample" wxRow = true ∧
      docMatchExpr (toDoc wxRow) (ftsQueryTerms "sample") = true :=
  (c5_fallback_amended ftsOffStore (fun _ => 0) "sample" wxRow 50 0
      (by decide) (by decide) (by decide)).2.2.1
    ⟨"sample", by decide, by decide⟩
